import Mathlib

/-!
# SpaceExtract: the coordinate parser and the geometry of `main.go`

A shallow embedding of `src/main.go`.

* A Go `string` is the list of its characters (`GoString`), so the texts are the
  valid UTF-8 ones.
* A Go `float64` is an IEEE 754 binary64 datum (`F64`), with round to nearest,
  ties to even; `==` is `F64.eq`.
* The standard-library functions the program calls (`strings.TrimPrefix`,
  `strings.TrimSuffix`, `strings.Split`, `strings.Fields`, `strconv.ParseFloat`)
  are executable functions that follow the library's documented behaviour.
* `fmt.Printf` in `ParseCoordinates` only writes a diagnostic to standard output;
  it has no part in the value returned and is left out.
* `planar.Area` and `planar.Length` belong to a package that is not among the
  sources; they are modelled from the specification, in exact arithmetic (see
  the section on geometry).
-/

namespace SpaceExtract

/-! ## float64 -/

/-- Go `float64`, an IEEE 754 binary64 datum.  `fin neg m e` denotes the number
`(-1)^neg * m * 2^(e - 1074)`; canonical data have `m < 2^53`, `e ≤ 2045`, and
`2^52 ≤ m` unless `e = 0` (subnormals and the two zeros).  All NaNs are one
value: the program never looks at a payload. -/
inductive F64 where
  | nan
  | inf (neg : Bool)
  | fin (neg : Bool) (m e : Nat)
  deriving DecidableEq, Repr

namespace F64

/-- Helper of `log2`: for `2 ≤ b` and `n < b^(2^fuel)`, the pair `(n / b^k, k)`
with `k` the largest exponent such that `b^k ≤ n` (and `k = 0` for `n = 0`). -/
def log2Aux (n : Nat) : Nat → Nat → Nat × Nat
  | 0, _ => (n, 0)
  | fuel + 1, b =>
    if n < b then (n, 0)
    else
      let r := log2Aux n fuel (b * b)
      if r.1 < b then (r.1, 2 * r.2) else (r.1 / b, 2 * r.2 + 1)

/-- Position of the leading binary digit of `n` (and `0` for `n = 0`). -/
def log2 (n : Nat) : Nat := (log2Aux n n 2).2

/-- Round the non-negative rational `n / d` (with `0 < d`), given sign `neg`, to
the nearest binary64, ties to even; values past the largest finite number go to
infinity. -/
def round (neg : Bool) (n d : Nat) : F64 :=
  let N := n <<< 1074
  let e1 := log2 N - log2 d - 52
  let e := if N / (d <<< e1) < 2 ^ 52 then e1 - 1 else e1
  let D := d <<< e
  let q := N / D
  let r := N % D
  let m := if 2 * r > D ∨ (2 * r = D ∧ q % 2 = 1) then q + 1 else q
  if m = 2 ^ 53 then
    if e + 1 > 2045 then inf neg else fin neg (2 ^ 52) (e + 1)
  else if e > 2045 then inf neg else fin neg m e

/-- Go `x * y` on float64. -/
def mul : F64 → F64 → F64
  | nan, _ => nan
  | _, nan => nan
  | inf a, inf b => inf (xor a b)
  | inf a, fin b m _ => if m = 0 then nan else inf (xor a b)
  | fin a m _, inf b => if m = 0 then nan else inf (xor a b)
  | fin a ma ea, fin b mb eb => round (xor a b) ((ma * mb) <<< (ea + eb)) (1 <<< 2148)

/-- Go `x / y` on float64 (division by zero follows IEEE 754, it does not panic). -/
def div : F64 → F64 → F64
  | nan, _ => nan
  | _, nan => nan
  | inf _, inf _ => nan
  | inf a, fin b _ _ => inf (xor a b)
  | fin a _ _, inf b => fin (xor a b) 0 0
  | fin a ma ea, fin b mb eb =>
    if mb = 0 then (if ma = 0 then nan else inf (xor a b))
    else round (xor a b) (ma <<< ea) (mb <<< eb)

/-- Go `x == y` on float64: NaN equals nothing, the two zeros are equal. -/
def eq : F64 → F64 → Bool
  | fin a ma ea, fin b mb eb => (ma == 0 && mb == 0) || (a == b && ma == mb && ea == eb)
  | inf a, inf b => a == b
  | _, _ => false

/-- The float64 nearest to the decimal constant `n / d`, as the Go compiler
converts an untyped constant. -/
def ofRatio (n d : Nat) : F64 := round false n d

/-- The exact value of a finite float64, as a rational number (and `0` for NaN
and the infinities, which have none). -/
def toRat : F64 → ℚ
  | fin neg m e => (if neg then -1 else 1) * (m : ℚ) * 2 ^ e / 2 ^ 1074
  | _ => 0

end F64

/-- `PointsToCm` of `main.go`: `points * (25.4 / DPI) / 10`. -/
def PointsToCm (points DPI : F64) : F64 :=
  F64.div (F64.mul points (F64.div (F64.ofRatio 254 10) DPI)) (F64.ofRatio 10 1)


/-! ## strings -/

/-- Go `string`, as the sequence of its characters. -/
abbrev GoString := List Char

/-- `strings.TrimPrefix(s, pre)`. -/
def TrimPrefix (s pre : GoString) : GoString :=
  if pre.isPrefixOf s then s.drop pre.length else s

/-- `strings.TrimSuffix(s, suf)`. -/
def TrimSuffix (s suf : GoString) : GoString :=
  if suf.isSuffixOf s then s.take (s.length - suf.length) else s

/-- Loop of `strings.Split` for a non-empty separator: `cur` is the piece read so
far and `skip` the number of separator characters still to pass over. -/
def splitGo (sep : GoString) : GoString → Nat → GoString → List GoString
  | [], _, cur => [cur]
  | _ :: s, skip + 1, cur => splitGo sep s skip cur
  | c :: s, 0, cur =>
    if sep.isPrefixOf (c :: s) then cur :: splitGo sep s (sep.length - 1) []
    else splitGo sep s 0 (cur ++ [c])

/-- `strings.Split(s, sep)`: the pieces of `s` between the successive
non-overlapping occurrences of `sep`, leftmost first; an empty `sep` splits after
each character. -/
def Split (s sep : GoString) : List GoString :=
  if sep = [] then s.map (fun c => [c]) else splitGo sep s 0 []

/-- `strings.Join(elems, sep)`. -/
def Join : List GoString → GoString → GoString
  | [], _ => []
  | e :: elems, sep => e ++ (elems.map (fun x => sep ++ x)).flatten

/-- `unicode.IsSpace`, on the code point of the character. -/
def isSpace (c : Char) : Bool :=
  let n := c.toNat
  n = 0x09 || n = 0x0A || n = 0x0B || n = 0x0C || n = 0x0D || n = 0x20
    || n = 0x85 || n = 0xA0 || n = 0x1680 || (0x2000 ≤ n && n ≤ 0x200A)
    || n = 0x2028 || n = 0x2029 || n = 0x202F || n = 0x205F || n = 0x3000

/-- Loop of `strings.Fields`; `cur` is the field being read. -/
def fieldsGo : GoString → GoString → List GoString
  | [], cur => if cur = [] then [] else [cur]
  | c :: s, cur =>
    if isSpace c then (if cur = [] then fieldsGo s [] else cur :: fieldsGo s [])
    else fieldsGo s (cur ++ [c])

/-- `strings.Fields(s)`: the maximal runs of non-space characters of `s`. -/
def Fields (s : GoString) : List GoString := fieldsGo s []


/-! ## strconv.ParseFloat -/

/-- A decimal digit, `'0' <= c && c <= '9'`, on the code of the character. -/
def isDigit (c : Char) : Bool := 48 ≤ c.toNat && c.toNat ≤ 57

/-- A hexadecimal letter, `'a' <= lower(c) && lower(c) <= 'f'`. -/
def isHexLetter (c : Char) : Bool :=
  (97 ≤ c.toNat && c.toNat ≤ 102) || (65 ≤ c.toNat && c.toNat ≤ 70)

/-- Value of a decimal digit, `c - '0'`. -/
def digitVal (c : Char) : Nat := c.toNat - 48

/-- Value of a hexadecimal letter, `lower(c) - 'a' + 10`. -/
def hexLetterVal (c : Char) : Nat :=
  if 97 ≤ c.toNat then c.toNat - 97 + 10 else c.toNat - 65 + 10

/-- ASCII lower-casing of `commonPrefixLenIgnoreCase`: `c += 'a' - 'A'` for
`'A' <= c && c <= 'Z'`. -/
def toLowerASCII (c : Char) : Char :=
  if 65 ≤ c.toNat ∧ c.toNat ≤ 90 then Char.ofNat (c.toNat + 32) else c

/-- Length of the common prefix of `s` and the lower-case word `pre`, ignoring
the case of `s`. -/
def commonPrefixLenIgnoreCase : GoString → GoString → Nat
  | c :: s, p :: pre => if toLowerASCII c = p then 1 + commonPrefixLenIgnoreCase s pre else 0
  | _, _ => 0

/-- The infinity case of `special`: `inf` or `infinity`, whatever its case;
`nsign` counts the sign already read. -/
def specialInf (neg : Bool) (nsign : Nat) (s : GoString) : Option (F64 × Nat) :=
  let n := commonPrefixLenIgnoreCase s ['i', 'n', 'f', 'i', 'n', 'i', 't', 'y']
  let n := if 3 < n ∧ n < 8 then 3 else n
  if n = 3 ∨ n = 8 then some (F64.inf neg, nsign + n) else none

/-- `special` of strconv: a leading, possibly signed, infinity or an unsigned
NaN, with the number of characters it takes. -/
def special : GoString → Option (F64 × Nat)
  | [] => none
  | c :: s =>
    if c = '+' ∨ c = '-' then specialInf (c = '-') 1 s
    else if c = 'i' ∨ c = 'I' then specialInf false 0 (c :: s)
    else if c = 'n' ∨ c = 'N' then
      if commonPrefixLenIgnoreCase (c :: s) ['n', 'a', 'n'] = 3 then some (F64.nan, 3) else none
    else none

/-- What the mantissa loop of `readFloat` has read: the digits as one number in
the base, how many of them stand after the point, and the flags of the loop.
(Go keeps the first 19 digits and falls back to the full digit string when more
are needed; the number denoted is the same.) -/
structure Mantissa where
  mant : Nat := 0
  frac : Nat := 0
  sawdot : Bool := false
  sawdigits : Bool := false
  underscores : Bool := false

/-- One more digit `v` in base `b`. -/
def Mantissa.push (st : Mantissa) (b v : Nat) : Mantissa :=
  { st with mant := st.mant * b + v, frac := if st.sawdot then st.frac + 1 else st.frac,
            sawdigits := true }

/-- The mantissa loop of `readFloat`; returns the text it stopped at. -/
def readMantissa (hex : Bool) : GoString → Mantissa → Mantissa × GoString
  | [], st => (st, [])
  | c :: s, st =>
    if c = '_' then readMantissa hex s { st with underscores := true }
    else if c = '.' then
      if st.sawdot then (st, c :: s) else readMantissa hex s { st with sawdot := true }
    else if isDigit c then readMantissa hex s (st.push (if hex then 16 else 10) (digitVal c))
    else if hex && isHexLetter c then readMantissa hex s (st.push 16 (hexLetterVal c))
    else (st, c :: s)

/-- The exponent digits of `readFloat`: the exponent so far (it stops growing
once it has reached 10000), whether an underscore was seen, the text left. -/
def readExpDigits : GoString → Nat → Bool → Nat × Bool × GoString
  | [], e, u => (e, u, [])
  | c :: s, e, u =>
    if c = '_' then readExpDigits s e true
    else if isDigit c then readExpDigits s (if e < 10000 then e * 10 + digitVal c else e) u
    else (e, u, c :: s)

/-- The optional sign of `readFloat`, before the mantissa and in the exponent:
whether it is `-`, and the text left. -/
def readSign : GoString → Bool × GoString
  | '+' :: t => (false, t)
  | '-' :: t => (true, t)
  | t => (false, t)

/-- The exponent character of `readFloat`, `lower(c) == expChar`: `p` after a
hexadecimal mantissa, `e` after a decimal one, in either case. -/
def isExpChar (hex : Bool) (c : Char) : Bool :=
  if hex then c = 'p' || c = 'P' else c = 'e' || c = 'E'

/-- The exponent of `readFloat` after its character: an optional sign and at
least one digit.  `none` for a syntax error, else whether the exponent is
negative, its magnitude, whether an underscore was seen, and the text left. -/
def readExpValue (s : GoString) : Option (Bool × Nat × Bool × GoString) :=
  let sg := readSign s
  match sg.2 with
  | [] => none
  | d :: t =>
    if isDigit d then
      let r := readExpDigits (d :: t) 0 false
      some (sg.1, r.1, r.2.1, r.2.2)
    else none

/-- The optional exponent of `readFloat` (mandatory after a hexadecimal
mantissa). -/
def readExponent (hex : Bool) : GoString → Option (Bool × Nat × Bool × GoString)
  | [] => if hex then none else some (false, 0, false, [])
  | c :: s =>
    if isExpChar hex c then readExpValue s
    else if hex then none
    else some (false, 0, false, c :: s)

/-- State of `underscoreOK`: the last character seen was the start of the
number, a digit or base prefix, an underscore, or something else. -/
inductive Saw where
  | start
  | digit
  | underscore
  | other
  deriving DecidableEq, Repr

/-- The loop of `underscoreOK`. -/
def underscoreLoop (hex : Bool) : Saw → GoString → Bool
  | saw, [] => saw != Saw.underscore
  | saw, c :: s =>
    if isDigit c || (hex && isHexLetter c) then underscoreLoop hex Saw.digit s
    else if c = '_' then
      if saw != Saw.digit then false else underscoreLoop hex Saw.underscore s
    else if saw = Saw.underscore then false
    else underscoreLoop hex Saw.other s

/-- `underscoreOK` of strconv: every underscore stands between two digits, or
between a base prefix and a digit. -/
def underscoreOK (s : GoString) : Bool :=
  let s := match s with
    | '-' :: t => t
    | '+' :: t => t
    | t => t
  match s with
  | '0' :: p :: t =>
    if p = 'b' ∨ p = 'B' ∨ p = 'o' ∨ p = 'O' ∨ p = 'x' ∨ p = 'X' then
      underscoreLoop (p = 'x' ∨ p = 'X') Saw.digit t
    else underscoreLoop false Saw.start s
  | _ => underscoreLoop false Saw.start s

/-- The optional base prefix of `readFloat`, `0x` or `0X` with at least one more
character after it: whether it is there, and the text left. -/
def readBase : GoString → Bool × GoString
  | '0' :: x :: c :: t =>
    if x = 'x' ∨ x = 'X' then (true, c :: t) else (false, '0' :: x :: c :: t)
  | t => (false, t)

/-- What `readFloat` has read of a number: its sign, its base (16 or 10), the
digits of its mantissa as one number, how many of them stand after the point,
the sign and the magnitude of its exponent, and whether an underscore was seen. -/
structure Number where
  neg : Bool
  hex : Bool
  mant : Nat
  frac : Nat
  eneg : Bool
  exp : Nat
  underscores : Bool

/-- `readFloat` of strconv, up to its check of the underscores: the number read
and the text left, `none` for a syntax error. -/
def readFloat (s : GoString) : Option (Number × GoString) :=
  let sg := readSign s
  let bs := readBase sg.2
  let mt := readMantissa bs.1 bs.2 {}
  if mt.1.sawdigits then
    match readExponent bs.1 mt.2 with
    | none => none
    | some ex =>
      some ({ neg := sg.1, hex := bs.1, mant := mt.1.mant, frac := mt.1.frac, eneg := ex.1,
              exp := ex.2.1, underscores := mt.1.underscores || ex.2.2.1 }, ex.2.2.2)
  else none

/-- The number `mant * b^up / b^down` as a fraction of naturals. -/
def scaled (mant b up down : Nat) : Nat × Nat :=
  if down ≤ up then (mant * b ^ (up - down), 1) else (mant, b ^ (down - up))

/-- The float64 nearest to the number read: `mant * 10^(±exp - frac)`, or
`mant * 2^(±exp - 4 * frac)` for a hexadecimal mantissa. -/
def Number.value (p : Number) : F64 :=
  let up := if p.eneg then 0 else p.exp
  let down := if p.eneg then p.exp else 0
  let nd := if p.hex then scaled p.mant 2 up (4 * p.frac + down)
            else scaled p.mant 10 up (p.frac + down)
  F64.round p.neg nd.1 nd.2

/-- `strconv.ParseFloat(s, 64)`; `none` stands for a non-nil error (a syntax
error, or a value out of range).  The result is the float64 nearest to the number
written, an infinity or a NaN for the words `inf`, `infinity` and `nan`.  The
whole of `s` has to be read, so `underscoreOK` is asked about `s` itself. -/
def ParseFloat (s : GoString) : Option F64 :=
  match special s with
  | some r => if r.2 = s.length then some r.1 else none
  | none =>
    match readFloat s with
    | none => none
    | some r =>
      if r.2 ≠ [] then none
      else if r.1.underscores && !underscoreOK s then none
      else
        match r.1.value with
        | F64.inf _ => none
        | v => some v

/-! ## main.go -/

/-- `orb.Point`, a `[2]float64`. -/
abbrev Point := F64 × F64

/-- Go `==` on `orb.Point`: both coordinates are `==`. -/
def pointEq (p q : Point) : Bool := F64.eq p.1 q.1 && F64.eq p.2 q.2

/-- The float64 constant `72` passed as DPI. -/
def dpi72 : F64 := F64.ofRatio 72 1

/-- Body of the loop of `ParseCoordinates`: the coordinates after `pair` has
been handled.  A pair that fails to convert is reported on standard output and
leaves `coords` as it was. -/
def parsePair (coords : List Point) (pair : GoString) : List Point :=
  match Fields pair with
  | [px, py] =>
    match ParseFloat px, ParseFloat py with
    | some x, some y => coords ++ [(PointsToCm x dpi72, PointsToCm y dpi72)]
    | _, _ => coords
  | _ => coords

/-- The closing step of `ParseCoordinates`: a copy of the first point is
appended when the first point is `!=` the last. -/
def closeRing (coords : List Point) : List Point :=
  match coords.head?, coords.getLast? with
  | some first, some last => if !pointEq first last then coords ++ [first] else coords
  | _, _ => coords

/-- Lines 45 to 65 of `ParseCoordinates`: the coordinates collected by the loop,
before the closing step. -/
def parsePoints (pathStr : GoString) : List Point :=
  let pathStr := TrimPrefix pathStr ['[']
  let pathStr := TrimSuffix pathStr [']']
  let pairs := Split pathStr [']', '[']
  pairs.foldl parsePair []

/-- `ParseCoordinates` of `main.go`. -/
def ParseCoordinates (pathStr : GoString) : List Point :=
  closeRing (parsePoints pathStr)


/-- `Space` of `main.go`, over the type `α` of a coordinate: `float64` in the
program (`Space F64`, whose `Path` is a `[]orb.Point`). -/
structure Space (α : Type) where
  Title : GoString
  Path : List (α × α)
  deriving DecidableEq

/-- Lines 88 to 93 of `FindSpacesFromEndObj`: one `Space` per regular-expression
match, in order, from its first and second submatch. -/
def spacesOfMatches (ms : List (List GoString)) : List (Space F64) :=
  ms.foldl (fun spaces m =>
    spaces ++ [{ Title := m.getD 1 [], Path := ParseCoordinates (m.getD 2 []) }]) []

/-! ## Geometry

`Space.Area` and `Space.Perimeter` hand the Path to `planar.Area` and
`planar.Length` of the package `github.com/paulmach/orb`, which is not part of
the repository.  The two are modelled from section 4.4 of the specification, in
exact arithmetic: the coordinates range over a linear ordered field `K` (the
Points of the specification are pairs of real numbers), and the square root of
the Euclidean distance is a parameter. -/

section Geometry

variable {K : Type} [LinearOrderedField K]

/-- The term of the shoelace sum for the pair of points `p`, `q`:
`x_p * y_q - x_q * y_p`. -/
def cross (p q : K × K) : K := p.1 * q.2 - q.1 * p.2

/-- The Euclidean distance between `p` and `q`, for the square root `sqrt`. -/
def segment (sqrt : K → K) (p q : K × K) : K :=
  sqrt ((p.1 - q.1) * (p.1 - q.1) + (p.2 - q.2) * (p.2 - q.2))

/-- The sum of `f` over the consecutive pairs of points of the closed ring:
every point with its successor, the last point with the first. -/
def ringSum {α : Type} (f : α → α → K) (path : List α) : K :=
  (List.zipWith f path (path.rotate 1)).sum

/-- Modelled from the spec: `planar.Area` of the orb package (absent from the
sources), "the absolute magnitude of the shoelace-formula signed sum over
consecutive point pairs, divided by two: area = |Σ (x_i * y_{i+1} - x_{i+1} *
y_i)| / 2 for i over the closed ring". -/
def planarArea (path : List (K × K)) : K := |ringSum cross path| / 2

/-- Modelled from the spec: `planar.Length` of the orb package (absent from the
sources), the "sum of Euclidean distances between each consecutive pair of
points in the closed ring, including the closing segment from the last point
back to the first". -/
def planarLength (sqrt : K → K) (path : List (K × K)) : K := ringSum (segment sqrt) path

/-- `Space.Area` of `main.go`: `planar.Area` of the polygon of the Path. -/
def Space.Area (s : Space K) : K := planarArea s.Path

/-- `Space.Perimeter` of `main.go`: `planar.Length` of the polygon of the Path. -/
def Space.Perimeter (sqrt : K → K) (s : Space K) : K := planarLength sqrt s.Path

/-- The closed ring `p_0, ..., p_{m-1}, p_0` of the points `p_0, ..., p_{m-1}`. -/
def closeOf {α : Type} (ps : List α) : List α := ps ++ ps.head?.toList

end Geometry

/-- The Space of the program with its coordinates as exact numbers: the Path
that `planar.Area` and `planar.Length`, as modelled, are applied to. -/
def Space.exact (s : Space F64) : Space ℚ :=
  { Title := s.Title, Path := s.Path.map (fun p => (F64.toRat p.1, F64.toRat p.2)) }

/-! ## Coordinate texts -/

/-- A character that is neither white space nor a bracket. -/
abbrev okChar (c : Char) : Prop := isSpace c = false ∧ c ≠ '[' ∧ c ≠ ']'

/-- A token of a coordinate group: a non-empty run of characters with no white
space and no bracket. -/
abbrev isToken (t : GoString) : Prop := t ≠ [] ∧ ∀ c ∈ t, okChar c

/-- A list of two-token groups. -/
abbrev Groups := List (GoString × GoString)

/-- Every token of every group is a token. -/
abbrev tokenGroups (gs : Groups) : Prop := ∀ g ∈ gs, isToken g.1 ∧ isToken g.2

/-- The coordinate text `[x1 y1][x2 y2]...[xn yn]` of the groups. -/
def render : Groups → GoString
  | [] => []
  | g :: gs => '[' :: (g.1 ++ ' ' :: (g.2 ++ ']' :: render gs))

/-- The point a group converts to, when both its tokens parse. -/
def convert (g : GoString × GoString) : Option Point :=
  match ParseFloat g.1, ParseFloat g.2 with
  | some x, some y => some (PointsToCm x dpi72, PointsToCm y dpi72)
  | _, _ => none

/-- The input point of a group: its two tokens as parsed, before conversion. -/
def inputPoint (g : GoString × GoString) : Option Point :=
  match ParseFloat g.1, ParseFloat g.2 with
  | some x, some y => some (x, y)
  | _, _ => none

/-- The text between the outer brackets of `render`: the groups joined by `][`. -/
def inner : Groups → GoString
  | [] => []
  | [g] => g.1 ++ ' ' :: g.2
  | g :: gs => g.1 ++ ' ' :: (g.2 ++ ']' :: '[' :: inner gs)

/-- The chunk of a group between two separators: `x y`. -/
def chunk (g : GoString × GoString) : GoString := g.1 ++ ' ' :: g.2

/-- Whether both tokens of the group parse, as a Boolean. -/
def numericB (g : GoString × GoString) : Bool :=
  (ParseFloat g.1).isSome && (ParseFloat g.2).isSome

/-- The conversion of an input point, coordinate by coordinate, at 72 DPI. -/
def toCm (p : Point) : Point := (PointsToCm p.1 dpi72, PointsToCm p.2 dpi72)

/-- Whether the first point of the sequence is `==` its last (true of the empty
sequence). -/
def ringClosed (coords : List Point) : Bool :=
  match coords.head?, coords.getLast? with
  | some first, some last => pointEq first last
  | _, _ => true

/-- The path is empty, or its first point is `==` its last, or its last point
is its first point over again and that point has a NaN coordinate (which is
`==` to nothing, itself included). -/
def closedUpToNaN (path : List Point) : Prop :=
  ringClosed path = true ∨
    ∃ first, path.head? = some first ∧ path.getLast? = some first ∧
      (first.1 = F64.nan ∨ first.2 = F64.nan)

/-! ## regexp

The regular expression of `FindSpacesFromEndObj` is a sequence of literal texts
and of `.*?`; Go's `regexp` returns the leftmost match and, among the matches
that start there, "the one that a backtracking engine would have found first". -/

/-- A piece of the regular expression: a literal text, or `.*?` (as few
characters other than the newline as possible), which is a capturing group
`(.*?)` when `capture` is set. -/
inductive Piece
  | lit (text : GoString)
  | lazyAny (capture : Bool)
  deriving DecidableEq

/-- The outcome of matching at a position: the texts of the capturing groups, in
order, and the text left after the match. -/
abbrev MatchResult := Option (List GoString × GoString)

/-- The backtracking search for `.*?` followed by the rest of the expression
(`k`): the rest is tried first, and only when it fails is one more character
other than the newline taken.  `taken` is the text taken so far. -/
def lazyGo (capture : Bool) (k : GoString → MatchResult) : GoString → GoString → MatchResult
  | [], taken => (k []).map (fun r => (if capture then taken :: r.1 else r.1, r.2))
  | c :: s, taken =>
    match k (c :: s) with
    | some r => some (if capture then taken :: r.1 else r.1, r.2)
    | none => if c = '\n' then none else lazyGo capture k s (taken ++ [c])

/-- The match of the pieces at the start of the text that a backtracking engine
finds first. -/
def matchPieces : List Piece → GoString → MatchResult
  | [], s => some ([], s)
  | Piece.lit text :: ps, s =>
    if text.isPrefixOf s then matchPieces ps (s.drop text.length) else none
  | Piece.lazyAny capture :: ps, s => lazyGo capture (fun t => matchPieces ps t) s []

/-- Loop of `FindAllStringSubmatch`: the text is searched from left to right; a
match is recorded as the matched text followed by its groups, and the search
goes on after it (`skip` is the number of characters of the last match still to
pass over).  The expression is one that matches no empty text, so nothing is
tried at the end of the text. -/
def findGo (ps : List Piece) : GoString → Nat → List (List GoString)
  | [], _ => []
  | _ :: s, skip + 1 => findGo ps s skip
  | c :: s, 0 =>
    match matchPieces ps (c :: s) with
    | some r =>
      let n := (c :: s).length - r.2.length
      ((c :: s).take n :: r.1) :: findGo ps s (n - 1)
    | none => findGo ps s 0

/-- `re.FindAllStringSubmatch(s, -1)`: the successive non-overlapping matches,
each as the list of the matched text and the texts of its groups. -/
def FindAllStringSubmatch (ps : List Piece) (s : GoString) : List (List GoString) :=
  findGo ps s 0

/-- The text `<</Type/Space/Title(` that opens a record. -/
def titleOpen : GoString := "<</Type/Space/Title(".toList

/-- The text `)/Path[` between the title and the path. -/
def pathOpen : GoString := ")/Path[".toList

/-- The text `]/C[` between the path and the colour. -/
def colourOpen : GoString := "]/C[".toList

/-- The text `]/CA ` between the colour and the opacity. -/
def opacityOpen : GoString := "]/CA ".toList

/-- The text `>>` that ends a record. -/
def recordEnd : GoString := ">>".toList

/-- The `pattern` of `FindSpacesFromEndObj`,
`<</Type/Space/Title\((.*?)\)/Path\[(.*?)\]/C\[.*?\]/CA .*?>>`, as compiled. -/
def pattern : List Piece :=
  [Piece.lit titleOpen, Piece.lazyAny true, Piece.lit pathOpen, Piece.lazyAny true,
    Piece.lit colourOpen, Piece.lazyAny false, Piece.lit opacityOpen, Piece.lazyAny false,
    Piece.lit recordEnd]

/-- `FindSpacesFromEndObj` of `main.go`, as a function of the content read from
the file. -/
def FindSpacesFromEndObj (content : GoString) : List (Space F64) :=
  spacesOfMatches (FindAllStringSubmatch pattern content)

/-! ## The CSV file -/

/-- `splitFilePath` of `main.go`; `sep` is `os.PathSeparator`. -/
def splitFilePath (sep : Char) (fullPath : GoString) : GoString × GoString :=
  let pathParts := Split fullPath [sep]
  let dir := Join pathParts.dropLast [sep]
  let filename := pathParts.getLast?.getD []
  (dir, filename)

/-- The `csvPath` of `ExportSpacesToCSV`: `fmt.Sprintf("%s/%s.csv", dir, baseName)`. -/
def csvPath (sep : Char) (pdfPath : GoString) : GoString :=
  let parts := splitFilePath sep pdfPath
  let baseName := TrimSuffix parts.2 ".pdf".toList
  parts.1 ++ '/' :: (baseName ++ ".csv".toList)

/-- `fieldNeedsQuotes` of `encoding/csv`, for the comma as delimiter. -/
def fieldNeedsQuotes (field : GoString) : Bool :=
  match field with
  | [] => false
  | r1 :: _ =>
    field = ['\\', '.'] || field.any (fun c => c = '\n' || c = '\r' || c = '"' || c = ',')
      || isSpace r1

/-- A field as `csv.Writer.Write` writes it: as it is, or between double quotes
with every double quote doubled. -/
def csvField (field : GoString) : GoString :=
  if fieldNeedsQuotes field then
    '"' :: ((field.map (fun c => if c = '"' then ['"', '"'] else [c])).flatten ++ ['"'])
  else field

/-- The line `csv.Writer.Write(record)` writes: the fields separated by commas,
ended by a newline. -/
def csvLine (record : List GoString) : GoString :=
  Join (record.map csvField) [','] ++ ['\n']

/-- The header record of the CSV file. -/
def csvHeader : List GoString :=
  ["Title".toList, "Area (m2)".toList, "Perimeter (m)".toList]

/-- `ExportSpacesToCSV` of `main.go`: the path of the file it creates and the
content it writes there.  `areaText` and `perimeterText` stand for
`fmt.Sprintf("%.2f", space.Area())` and `fmt.Sprintf("%.2f", space.Perimeter())`,
which go through the orb package. -/
def ExportSpacesToCSV (sep : Char) (areaText perimeterText : Space F64 → GoString)
    (spaces : List (Space F64)) (pdfPath : GoString) : GoString × GoString :=
  (csvPath sep pdfPath,
    csvLine csvHeader ++
      (spaces.map (fun space => csvLine [space.Title, areaText space, perimeterText space])).flatten)

/-! ## Records and groups -/

/-- The coordinate text `[b1][b2]...[bn]` of the groups with bodies `b1 ... bn`. -/
def groupsText : List GoString → GoString
  | [] => []
  | b :: bs => '[' :: (b ++ ']' :: groupsText bs)

/-- Whether the group with this body splits on white space into exactly two
tokens. -/
def twoTokens (body : GoString) : Bool := (Fields body).length = 2

/-- Whether `lit` begins at some position inside `s`, when `s` is followed by
`next`. -/
def startsIn (lit : GoString) : GoString → GoString → Bool
  | [], _ => false
  | c :: s, next => lit.isPrefixOf (c :: s ++ next) || startsIn lit s next

/-- A field of a record that `.*?` followed by `lit` captures whole: it has no
newline and `lit` does not begin inside it. -/
def fieldOK (lit field : GoString) : Bool :=
  !field.contains '\n' && !startsIn lit field lit

/-- The fields of a record `<</Type/Space/Title(T)/Path[P]/C[c]/CA a>>`. -/
structure Record where
  title : GoString
  path : GoString
  colour : GoString
  opacity : GoString
  deriving DecidableEq

/-- The text of the record. -/
def Record.text (r : Record) : GoString :=
  titleOpen ++ r.title ++ pathOpen ++ r.path ++ colourOpen ++ r.colour ++ opacityOpen
    ++ r.opacity ++ recordEnd

/-- A well-formed record: no field has a newline, and in no field does the text
that ends the field begin. -/
def Record.wellFormed (r : Record) : Bool :=
  fieldOK pathOpen r.title && fieldOK colourOpen r.path && fieldOK opacityOpen r.colour
    && fieldOK recordEnd r.opacity

/-! ## Example inputs -/

/-- The groups of the text `[0 0][72 0][72 72][0 72][0 0]`. -/
def squareGroups : Groups :=
  [(['0'], ['0']), (['7', '2'], ['0']), (['7', '2'], ['7', '2']), (['0'], ['7', '2']),
    (['0'], ['0'])]

/-- The float64 `0`. -/
def f0 : F64 := F64.fin false 0 0

/-- The float64 `72`. -/
def f72 : F64 := F64.fin false 5066549580791808 1028

/-- The float64 `2.54`. -/
def f254 : F64 := F64.fin false 5719571526760530 1023

/-- The input points of `squareGroups`. -/
def squareInputs : List Point := [(f0, f0), (f72, f0), (f72, f72), (f0, f72), (f0, f0)]

/-- A two by three rectangle, as a closed ring with rational coordinates. -/
def roomSpace : Space ℚ :=
  { Title := ['R', 'o', 'o', 'm'], Path := [(0, 0), (2, 0), (2, 3), (0, 3), (0, 0)] }

/-- The record `<</Type/Space/Title(Hall)/Path[[0 0][72 0][72 72]]/C[1 0 0]/CA 0.5>>`. -/
def hallRecord : Record :=
  { title := "Hall".toList, path := "[0 0][72 0][72 72]".toList, colour := "1 0 0".toList,
    opacity := "0.5".toList }

/-- The record `<</Type/Space/Title(Room (A))/Path[[0 0][72 0]]/C[0 1 0]/CA 1>>`,
whose title holds a pair of parentheses. -/
def roomRecord : Record :=
  { title := "Room (A)".toList, path := "[0 0][72 0]".toList, colour := "0 1 0".toList,
    opacity := "1".toList }

/-- A document with no record. -/
def emptyDocument : GoString := "%PDF-1.7 <</Type/Page>> %%EOF".toList

theorem F64.log2Aux_spec (n : Nat) (fuel b : Nat) (hb : 2 ≤ b) (hn : n < b ^ 2 ^ fuel) :
    (F64.log2Aux n fuel b).1 = n / b ^ (F64.log2Aux n fuel b).2 ∧
    (F64.log2Aux n fuel b).1 < b ∧ (0 < n → 0 < (F64.log2Aux n fuel b).1) := by
  induction fuel generalizing b with
  | zero =>
    simp only [F64.log2Aux, pow_zero, Nat.div_one, true_and]
    exact ⟨by simpa using hn, fun h => h⟩
  | succ fuel ih =>
    unfold F64.log2Aux
    split
    · next h => exact ⟨by simp, h, fun h => h⟩
    · next h =>
      have hb2 : 2 ≤ b * b := by nlinarith
      have hn2 : n < (b * b) ^ 2 ^ fuel := by
        rw [← pow_two, ← pow_mul, ← pow_succ']
        exact hn
      obtain ⟨h1, h2, h3⟩ := ih (b * b) hb2 hn2
      simp only
      split
      · next hq =>
        refine ⟨?_, hq, h3⟩
        rw [h1, pow_mul, pow_two]
      · next hq =>
        have hq' : b ≤ (F64.log2Aux n fuel (b * b)).1 := Nat.le_of_not_lt hq
        refine ⟨?_, ?_, ?_⟩
        · rw [pow_succ, pow_mul, pow_two, ← Nat.div_div_eq_div_mul, ← h1]
        · exact Nat.div_lt_of_lt_mul h2
        · intro _
          exact Nat.div_pos hq' (by omega)

/-- `log2 n` is the position of the leading binary digit of a positive `n`. -/
theorem F64.log2_spec (n : Nat) (h : 0 < n) :
    2 ^ F64.log2 n ≤ n ∧ n < 2 ^ (F64.log2 n + 1) := by
  have hn : n < 2 ^ 2 ^ n :=
    lt_trans (Nat.lt_two_pow n) (Nat.pow_lt_pow_right (by norm_num) (Nat.lt_two_pow n))
  obtain ⟨h1, h2, h3⟩ := F64.log2Aux_spec n n 2 (le_refl 2) hn
  have h4 := h3 h
  unfold F64.log2
  have hq : n / 2 ^ (F64.log2Aux n n 2).2 = 1 := by omega
  have hpos : 0 < 2 ^ (F64.log2Aux n n 2).2 := Nat.pow_pos (by norm_num)
  constructor
  · by_contra hc
    have : n / 2 ^ (F64.log2Aux n n 2).2 = 0 := Nat.div_eq_of_lt (Nat.lt_of_not_le hc)
    omega
  · rw [pow_succ]
    have := Nat.lt_mul_of_div_lt (show n / 2 ^ (F64.log2Aux n n 2).2 < 2 by omega) hpos
    linarith

theorem F64.log2_zero : F64.log2 0 = 0 := by decide

/-- The exponent `round` picks leaves a quotient below `2^53`, and one of at
least `2^52` unless the exponent is the least one. -/
theorem F64.exponent_spec (N d : Nat) (hd : 0 < d) (e1 e : Nat)
    (he1 : e1 = F64.log2 N - F64.log2 d - 52)
    (he : e = if N / (d <<< e1) < 2 ^ 52 then e1 - 1 else e1) :
    N / (d <<< e) < 2 ^ 53 ∧ (2 ^ 52 ≤ N / (d <<< e) ∨ e = 0) := by
  rw [Nat.shiftLeft_eq] at he ⊢
  have hb := F64.log2_spec d hd
  rcases Nat.eq_zero_or_pos N with hN | hN
  · subst hN
    simp only [F64.log2_zero, Nat.zero_sub] at he1
    subst he1
    simp at he
    subst he
    simp
  · have ha := F64.log2_spec N hN
    have hD1 : 0 < d * 2 ^ e1 := Nat.mul_pos hd (Nat.pow_pos (by norm_num))
    have hD : 0 < d * 2 ^ e := Nat.mul_pos hd (Nat.pow_pos (by norm_num))
    by_cases hab : F64.log2 d + 52 ≤ F64.log2 N
    · -- normal range
      have hsum : F64.log2 N = e1 + (F64.log2 d + 52) := by omega
      have hpa : 2 ^ F64.log2 N = 2 ^ e1 * (2 ^ F64.log2 d * 2 ^ 52) := by
        rw [hsum, pow_add, pow_add]
      have hlt1 : N < 2 ^ 53 * (d * 2 ^ e1) := by
        have h1 : N < 2 * 2 ^ F64.log2 N := by
          have := ha.2
          rw [pow_succ] at this
          linarith
        have h2 : 2 ^ e1 * (2 ^ F64.log2 d * 2 ^ 52) ≤ 2 ^ e1 * (d * 2 ^ 52) :=
          Nat.mul_le_mul_left _ (Nat.mul_le_mul_right _ hb.1)
        calc N < 2 * 2 ^ F64.log2 N := h1
          _ = 2 * (2 ^ e1 * (2 ^ F64.log2 d * 2 ^ 52)) := by rw [hpa]
          _ ≤ 2 * (2 ^ e1 * (d * 2 ^ 52)) := Nat.mul_le_mul_left _ h2
          _ = 2 ^ 53 * (d * 2 ^ e1) := by ring
      by_cases hq : N / (d * 2 ^ e1) < 2 ^ 52
      · rw [if_pos hq] at he
        have hq' : N < 2 ^ 52 * (d * 2 ^ e1) := (Nat.div_lt_iff_lt_mul hD1).mp hq
        rcases Nat.eq_zero_or_pos e1 with h0 | h0
        · have he0 : e = 0 := by omega
          subst he0
          rw [h0] at hq
          exact ⟨lt_trans hq (by norm_num), Or.inr rfl⟩
        · have he1' : e1 = e + 1 := by omega
          have hp : 2 ^ e1 = 2 * 2 ^ e := by rw [he1', pow_succ]; ring
          constructor
          · rw [Nat.div_lt_iff_lt_mul hD]
            calc N < 2 ^ 52 * (d * 2 ^ e1) := hq'
              _ = 2 ^ 53 * (d * 2 ^ e) := by rw [hp]; ring
          · left
            rw [Nat.le_div_iff_mul_le hD]
            have hd2 : d < 2 * 2 ^ F64.log2 d := by
              have := hb.2
              rw [pow_succ] at this
              linarith
            have h3 : 2 ^ 52 * (d * 2 ^ e) ≤ 2 ^ 52 * (2 * 2 ^ F64.log2 d * 2 ^ e) :=
              Nat.mul_le_mul_left _ (Nat.mul_le_mul_right _ (le_of_lt hd2))
            calc 2 ^ 52 * (d * 2 ^ e) ≤ 2 ^ 52 * (2 * 2 ^ F64.log2 d * 2 ^ e) := h3
              _ = 2 ^ e1 * (2 ^ F64.log2 d * 2 ^ 52) := by rw [hp]; ring
              _ = 2 ^ F64.log2 N := hpa.symm
              _ ≤ N := ha.1
      · rw [if_neg hq] at he
        subst he
        exact ⟨(Nat.div_lt_iff_lt_mul hD1).mpr hlt1, Or.inl (Nat.le_of_not_lt hq)⟩
    · -- below the normal range
      have h0 : e1 = 0 := by omega
      subst h0
      have hlt : N < 2 ^ 52 * (d * 2 ^ 0) := by
        have h1 : N < 2 ^ (F64.log2 N + 1) := ha.2
        have h2 : 2 ^ (F64.log2 N + 1) ≤ 2 ^ (F64.log2 d + 52) :=
          Nat.pow_le_pow_right (by norm_num) (by omega)
        have h3 : 2 ^ (F64.log2 d + 52) ≤ d * 2 ^ 52 := by
          rw [pow_add]
          exact Nat.mul_le_mul_right _ hb.1
        calc N < 2 ^ (F64.log2 N + 1) := h1
          _ ≤ 2 ^ (F64.log2 d + 52) := h2
          _ ≤ d * 2 ^ 52 := h3
          _ = 2 ^ 52 * (d * 2 ^ 0) := by ring
      have hq : N / (d * 2 ^ 0) < 2 ^ 52 := (Nat.div_lt_iff_lt_mul hD1).mpr hlt
      rw [if_pos hq] at he
      have he0 : e = 0 := by omega
      subst he0
      exact ⟨lt_trans hq (by norm_num), Or.inr rfl⟩

/-- The rounding step of `round`: the multiple `m * D` chosen is within half of
`D` from `N`, and `m` is even when `N` is half-way. -/
theorem F64.nearest_spec (N D q r m : Nat) (hD : 0 < D) (hq : q = N / D) (hr : r = N % D)
    (hm : m = if 2 * r > D ∨ (2 * r = D ∧ q % 2 = 1) then q + 1 else q) :
    2 * (m * D) ≤ 2 * N + D ∧ 2 * N ≤ 2 * (m * D) + D ∧
    (2 * N = 2 * (m * D) + D ∨ 2 * (m * D) = 2 * N + D → m % 2 = 0) ∧
    q ≤ m ∧ m ≤ q + 1 := by
  have h1 : D * q + r = N := by rw [hq, hr]; exact Nat.div_add_mod N D
  have h2 : r < D := by rw [hr]; exact Nat.mod_lt N hD
  by_cases hc : 2 * r > D ∨ (2 * r = D ∧ q % 2 = 1)
  · rw [if_pos hc] at hm
    subst hm
    have e : (q + 1) * D = D * q + D := by ring
    rw [e]
    refine ⟨by omega, by omega, ?_, by omega, by omega⟩
    intro ht
    omega
  · rw [if_neg hc] at hm
    subst hm
    have e : m * D = D * m := by ring
    rw [e]
    refine ⟨by omega, by omega, ?_, by omega, by omega⟩
    intro ht
    omega


theorem F64.round_eq (neg : Bool) (n d : Nat) (hd : 0 < d) :
    ∃ e q m : Nat,
      q < 2 ^ 53 ∧ (2 ^ 52 ≤ q ∨ e = 0) ∧ q = n <<< 1074 / d <<< e ∧
      2 * (m * d <<< e) ≤ 2 * n <<< 1074 + d <<< e ∧
      2 * n <<< 1074 ≤ 2 * (m * d <<< e) + d <<< e ∧
      (2 * n <<< 1074 = 2 * (m * d <<< e) + d <<< e ∨
        2 * (m * d <<< e) = 2 * n <<< 1074 + d <<< e → m % 2 = 0) ∧
      q ≤ m ∧ m ≤ q + 1 ∧
      F64.round neg n d =
        if m = 2 ^ 53 then
          if e + 1 > 2045 then F64.inf neg else F64.fin neg (2 ^ 52) (e + 1)
        else if e > 2045 then F64.inf neg else F64.fin neg m e := by
  have hx := F64.exponent_spec (n <<< 1074) d hd _ _ rfl rfl
  have hD : 0 < d <<< (if n <<< 1074 / d <<< (F64.log2 (n <<< 1074) - F64.log2 d - 52)
      < 2 ^ 52 then F64.log2 (n <<< 1074) - F64.log2 d - 52 - 1
      else F64.log2 (n <<< 1074) - F64.log2 d - 52) := by
    rw [Nat.shiftLeft_eq]
    exact Nat.mul_pos hd (Nat.pow_pos (by norm_num))
  have hy := F64.nearest_spec (n <<< 1074) _ _ _ _ hD rfl rfl rfl
  exact ⟨_, _, _, hx.1, hx.2, rfl, hy.1, hy.2.1, hy.2.2.1, hy.2.2.2.1, hy.2.2.2.2, rfl⟩

set_option exponentiation.threshold 2200 in
/-- `round` returns a float64 nearest to `n / d`, an even one of the two when
`n / d` is half-way, in canonical form, and an infinity only from the largest
finite float64 plus half a unit in its last place on. -/
theorem F64.round_nearest (neg : Bool) (n d : Nat) (hd : 0 < d) :
    (∀ s m e, F64.round neg n d = F64.fin s m e →
      s = neg ∧ m < 2 ^ 53 ∧ e ≤ 2045 ∧ (2 ^ 52 ≤ m ∨ e = 0) ∧
      2 * (m * 2 ^ e * d) ≤ 2 * (n * 2 ^ 1074) + 2 ^ e * d ∧
      2 * (n * 2 ^ 1074) ≤ 2 * (m * 2 ^ e * d) + 2 ^ e * d ∧
      (2 * (n * 2 ^ 1074) = 2 * (m * 2 ^ e * d) + 2 ^ e * d ∨
        2 * (m * 2 ^ e * d) = 2 * (n * 2 ^ 1074) + 2 ^ e * d → m % 2 = 0)) ∧
    (∀ s, F64.round neg n d = F64.inf s →
      s = neg ∧ (2 ^ 54 - 1) * (2 ^ 2045 * d) ≤ 2 * (n * 2 ^ 1074)) ∧
    F64.round neg n d ≠ F64.nan := by
  obtain ⟨e, q, m, hq53, hq52, hq, hlo, hhi, htie, hqm, hmq, hr⟩ := F64.round_eq neg n d hd
  have hmul : ∀ k : Nat, k * (d * 2 ^ e) = k * 2 ^ e * d := fun k => by ring
  have hcomm : d * 2 ^ e = 2 ^ e * d := Nat.mul_comm _ _
  rw [Nat.shiftLeft_eq n, Nat.shiftLeft_eq d] at hq hlo hhi htie
  rw [hmul m, hcomm] at hlo hhi htie
  have hpe : 2 ^ (e + 1) = 2 * 2 ^ e := by rw [pow_succ]; ring
  rw [hr]
  refine ⟨?_, ?_, ?_⟩
  · intro s m2 e2 h
    split at h
    · next hm =>
      split at h
      · exact absurd h (by simp)
      · next he =>
        simp only [F64.fin.injEq] at h
        obtain ⟨rfl, rfl, rfl⟩ := h
        subst hm
        refine ⟨rfl, by norm_num, by omega, Or.inl (le_refl _), ?_, ?_, fun _ => by norm_num⟩
        · rw [hpe]
          have : 2 ^ 52 * (2 * 2 ^ e) * d = 2 ^ 53 * 2 ^ e * d := by ring
          rw [this]
          have : 2 * 2 ^ e * d = 2 ^ e * d + 2 ^ e * d := by ring
          omega
        · rw [hpe]
          have : 2 ^ 52 * (2 * 2 ^ e) * d = 2 ^ 53 * 2 ^ e * d := by ring
          rw [this]
          have : 2 * 2 ^ e * d = 2 ^ e * d + 2 ^ e * d := by ring
          omega
    · next hm =>
      split at h
      · exact absurd h (by simp)
      · next he =>
        simp only [F64.fin.injEq] at h
        obtain ⟨rfl, rfl, rfl⟩ := h
        refine ⟨rfl, lt_of_le_of_ne (le_trans hmq (Nat.succ_le_of_lt hq53)) hm,
          Nat.le_of_not_lt he, ?_, hlo, hhi, htie⟩
        rcases hq52 with h52 | h0
        · exact Or.inl (le_trans h52 hqm)
        · exact Or.inr h0
  · intro s h
    have hDpos : 0 < d * 2 ^ e := Nat.mul_pos hd (Nat.pow_pos (by norm_num))
    split at h
    · next hm =>
      split at h
      · next he =>
        simp only [F64.inf.injEq] at h
        refine ⟨h.symm, ?_⟩
        subst hm
        have hge : 2 ^ 2045 * d ≤ 2 ^ e * d :=
          Nat.mul_le_mul_right _ (Nat.pow_le_pow_right (by norm_num) (by omega))
        have h1 : (2 ^ 54 - 1) * (2 ^ 2045 * d) ≤ (2 ^ 54 - 1) * (2 ^ e * d) :=
          Nat.mul_le_mul_left _ hge
        have h2 : (2 ^ 54 - 1) * (2 ^ e * d) + 2 ^ e * d = 2 * (2 ^ 53 * 2 ^ e * d) := by
          have : (2 : Nat) ^ 54 - 1 + 1 = 2 * 2 ^ 53 := by norm_num
          calc (2 ^ 54 - 1) * (2 ^ e * d) + 2 ^ e * d
              = (2 ^ 54 - 1 + 1) * (2 ^ e * d) := by ring
            _ = 2 * (2 ^ 53 * 2 ^ e * d) := by rw [this]; ring
        omega
      · exact absurd h (by simp)
    · next hm =>
      split at h
      · next he =>
        simp only [F64.inf.injEq] at h
        refine ⟨h.symm, ?_⟩
        have h52 : 2 ^ 52 ≤ q := by
          rcases hq52 with h52 | h0
          · exact h52
          · omega
        have hqN : q * (d * 2 ^ e) ≤ n * 2 ^ 1074 := by
          rw [hq]
          exact Nat.div_mul_le_self _ _
        have hge : 2 * (2 ^ 2045 * d) ≤ 2 ^ e * d := by
          have : 2 ^ 2046 ≤ 2 ^ e := Nat.pow_le_pow_right (by norm_num) (by omega)
          calc 2 * (2 ^ 2045 * d) = 2 ^ 2046 * d := by ring
            _ ≤ 2 ^ e * d := Nat.mul_le_mul_right _ this
        calc (2 ^ 54 - 1) * (2 ^ 2045 * d) ≤ 2 ^ 54 * (2 ^ 2045 * d) :=
              Nat.mul_le_mul_right _ (Nat.sub_le _ _)
          _ = 2 * (2 ^ 52 * (2 * (2 ^ 2045 * d))) := by ring
          _ ≤ 2 * (2 ^ 52 * (2 ^ e * d)) :=
              Nat.mul_le_mul_left _ (Nat.mul_le_mul_left _ hge)
          _ ≤ 2 * (q * (2 ^ e * d)) :=
              Nat.mul_le_mul_left _ (Nat.mul_le_mul_right _ h52)
          _ = 2 * (q * (d * 2 ^ e)) := by ring
          _ ≤ 2 * (n * 2 ^ 1074) := Nat.mul_le_mul_left _ hqN
      · exact absurd h (by simp)
  · split <;> split <;> simp

/-! ## Lemmas on `ParseFloat` -/

theorem okChar_of_code (c : Char)
    (h : 33 ≤ c.toNat ∧ c.toNat ≤ 126 ∧ c.toNat ≠ 91 ∧ c.toNat ≠ 93) : okChar c := by
  refine ⟨?_, ?_, ?_⟩
  · simp only [isSpace, Bool.or_eq_false_iff, decide_eq_false_iff_not, Bool.and_eq_false_imp,
      decide_eq_true_eq]
    omega
  · rintro rfl
    exact h.2.2.1 rfl
  · rintro rfl
    exact h.2.2.2 rfl

theorem okChar_digit (c : Char) (h : isDigit c = true) : okChar c := by
  simp only [isDigit, Bool.and_eq_true, decide_eq_true_eq] at h
  exact okChar_of_code c (by omega)

theorem okChar_hexLetter (c : Char) (h : isHexLetter c = true) : okChar c := by
  simp only [isHexLetter, Bool.or_eq_true, Bool.and_eq_true, decide_eq_true_eq] at h
  exact okChar_of_code c (by omega)

theorem readMantissa_ok (hex : Bool) (s : GoString) (st : Mantissa) :
    ∃ pre, s = pre ++ (readMantissa hex s st).2 ∧ ∀ c ∈ pre, okChar c := by
  induction s generalizing st with
  | nil => exact ⟨[], rfl, by simp⟩
  | cons c s ih =>
    have step : ∀ st2, okChar c →
        ∃ pre, c :: s = pre ++ (readMantissa hex s st2).2 ∧ ∀ d ∈ pre, okChar d := by
      intro st2 hc
      obtain ⟨pre, h1, h2⟩ := ih st2
      refine ⟨c :: pre, by rw [List.cons_append, ← h1], ?_⟩
      intro d hd
      rcases List.mem_cons.mp hd with rfl | hd
      · exact hc
      · exact h2 d hd
    have stop : ∃ pre, c :: s = pre ++ (c :: s) ∧ ∀ d ∈ pre, okChar d :=
      ⟨[], rfl, by simp⟩
    unfold readMantissa
    split
    · next h => subst h; exact step _ (by decide)
    · split
      · next h =>
        subst h
        split
        · exact stop
        · exact step _ (by decide)
      · split
        · next h => exact step _ (okChar_digit c h)
        · split
          · next h =>
            simp only [Bool.and_eq_true] at h
            exact step _ (okChar_hexLetter c h.2)
          · exact stop

theorem readExpDigits_ok (s : GoString) (e : Nat) (u : Bool) :
    ∃ pre, s = pre ++ (readExpDigits s e u).2.2 ∧ ∀ c ∈ pre, okChar c := by
  induction s generalizing e u with
  | nil => exact ⟨[], rfl, by simp⟩
  | cons c s ih =>
    have step : ∀ e2 u2, okChar c →
        ∃ pre, c :: s = pre ++ (readExpDigits s e2 u2).2.2 ∧ ∀ d ∈ pre, okChar d := by
      intro e2 u2 hc
      obtain ⟨pre, h1, h2⟩ := ih e2 u2
      refine ⟨c :: pre, by rw [List.cons_append, ← h1], ?_⟩
      intro d hd
      rcases List.mem_cons.mp hd with rfl | hd
      · exact hc
      · exact h2 d hd
    unfold readExpDigits
    split
    · next h => subst h; exact step _ _ (by decide)
    · split
      · next h => exact step _ _ (okChar_digit c h)
      · exact ⟨[], rfl, by simp⟩


theorem readSign_ok (s : GoString) :
    ∃ pre, s = pre ++ (readSign s).2 ∧ ∀ c ∈ pre, okChar c := by
  unfold readSign
  split
  · exact ⟨['+'], rfl, by decide⟩
  · exact ⟨['-'], rfl, by decide⟩
  · exact ⟨[], rfl, by simp⟩

theorem readBase_ok (s : GoString) :
    ∃ pre, s = pre ++ (readBase s).2 ∧ ∀ c ∈ pre, okChar c := by
  unfold readBase
  split
  · next x c t =>
    split
    · next h =>
      refine ⟨['0', x], rfl, ?_⟩
      intro d hd
      simp only [List.mem_cons, List.mem_singleton, List.not_mem_nil, or_false] at hd
      rcases hd with rfl | rfl
      · decide
      · rcases h with rfl | rfl <;> decide
    · exact ⟨[], rfl, by simp⟩
  · exact ⟨[], rfl, by simp⟩

theorem okChar_expChar (hex : Bool) (c : Char) (h : isExpChar hex c = true) : okChar c := by
  cases hex
  · simp only [isExpChar, Bool.false_eq_true, if_false, Bool.or_eq_true, decide_eq_true_eq] at h
    rcases h with rfl | rfl <;> decide
  · simp only [isExpChar, if_true, Bool.or_eq_true, decide_eq_true_eq] at h
    rcases h with rfl | rfl <;> decide

theorem readExpValue_ok (s : GoString) (ex : Bool × Nat × Bool × GoString)
    (h : readExpValue s = some ex) :
    ∃ pre, s = pre ++ ex.2.2.2 ∧ ∀ c ∈ pre, okChar c := by
  obtain ⟨pre1, h1, hp1⟩ := readSign_ok s
  simp only [readExpValue] at h
  split at h
  · exact absurd h (by simp)
  · next d t hd =>
    split at h
    · simp only [Option.some.injEq] at h
      subst h
      obtain ⟨pre2, h2, hp2⟩ := readExpDigits_ok (d :: t) 0 false
      refine ⟨pre1 ++ pre2, ?_, ?_⟩
      · rw [List.append_assoc, ← h2, ← hd]
        exact h1
      · intro x hx
        rcases List.mem_append.mp hx with hx | hx
        · exact hp1 x hx
        · exact hp2 x hx
    · exact absurd h (by simp)

theorem readExponent_ok (hex : Bool) (s : GoString) (ex : Bool × Nat × Bool × GoString)
    (h : readExponent hex s = some ex) :
    ∃ pre, s = pre ++ ex.2.2.2 ∧ ∀ c ∈ pre, okChar c := by
  cases s with
  | nil =>
    simp only [readExponent] at h
    split at h
    · exact absurd h (by simp)
    · simp only [Option.some.injEq] at h
      subst h
      exact ⟨[], rfl, by simp⟩
  | cons c s =>
    simp only [readExponent] at h
    split at h
    · next hc =>
      obtain ⟨pre, h1, hp⟩ := readExpValue_ok s ex h
      refine ⟨c :: pre, by rw [List.cons_append, ← h1], ?_⟩
      intro x hx
      rcases List.mem_cons.mp hx with rfl | hx
      · exact okChar_expChar hex x hc
      · exact hp x hx
    · split at h
      · exact absurd h (by simp)
      · simp only [Option.some.injEq] at h
        subst h
        exact ⟨[], rfl, by simp⟩

theorem readFloat_ok (s : GoString) (r : Number × GoString) (h : readFloat s = some r) :
    ∃ pre, s = pre ++ r.2 ∧ ∀ c ∈ pre, okChar c := by
  unfold readFloat at h
  simp only at h
  split at h
  · split at h
    · exact absurd h (by simp)
    · next ex hex =>
      simp only [Option.some.injEq] at h
      subst h
      obtain ⟨pre1, h1, hp1⟩ := readSign_ok s
      obtain ⟨pre2, h2, hp2⟩ := readBase_ok (readSign s).2
      obtain ⟨pre3, h3, hp3⟩ := readMantissa_ok (readBase (readSign s).2).1
        (readBase (readSign s).2).2 {}
      obtain ⟨pre4, h4, hp4⟩ := readExponent_ok _ _ ex hex
      refine ⟨pre1 ++ (pre2 ++ (pre3 ++ pre4)), ?_, ?_⟩
      · simp only [List.append_assoc, ← h4, ← h3, ← h2, ← h1]
      · intro x hx
        simp only [List.mem_append] at hx
        rcases hx with hx | hx | hx | hx
        · exact hp1 x hx
        · exact hp2 x hx
        · exact hp3 x hx
        · exact hp4 x hx
  · exact absurd h (by simp)

theorem okChar_of_lower (c p : Char) (h : toLowerASCII c = p)
    (hp : 97 ≤ p.toNat ∧ p.toNat ≤ 122) : okChar c := by
  unfold toLowerASCII at h
  split at h
  · exact okChar_of_code c (by omega)
  · subst h
    exact okChar_of_code c (by omega)

theorem commonPrefix_le (s pre : GoString) : commonPrefixLenIgnoreCase s pre ≤ s.length := by
  induction s generalizing pre with
  | nil => simp [commonPrefixLenIgnoreCase]
  | cons c s ih =>
    cases pre with
    | nil => simp [commonPrefixLenIgnoreCase]
    | cons p pre =>
      unfold commonPrefixLenIgnoreCase
      split
      · have := ih pre
        simp only [List.length_cons]
        omega
      · simp

theorem commonPrefix_full (s pre : GoString)
    (h : commonPrefixLenIgnoreCase s pre = s.length)
    (hp : ∀ p ∈ pre, 97 ≤ p.toNat ∧ p.toNat ≤ 122) : ∀ c ∈ s, okChar c := by
  induction s generalizing pre with
  | nil => simp
  | cons c s ih =>
    cases pre with
    | nil => simp [commonPrefixLenIgnoreCase] at h
    | cons p pre =>
      unfold commonPrefixLenIgnoreCase at h
      split at h
      · next hc =>
        have h2 : commonPrefixLenIgnoreCase s pre = s.length := by
          simp only [List.length_cons] at h
          omega
        intro d hd
        rcases List.mem_cons.mp hd with rfl | hd
        · exact okChar_of_lower d p hc (hp p (by simp))
        · exact ih pre h2 (fun q hq => hp q (by simp [hq])) d hd
      · simp at h

theorem specialInf_ok (neg : Bool) (nsign : Nat) (s : GoString) (r : F64 × Nat)
    (h : specialInf neg nsign s = some r) (hl : r.2 = nsign + s.length) :
    ∀ c ∈ s, okChar c := by
  simp only [specialInf] at h
  have hle := commonPrefix_le s ['i', 'n', 'f', 'i', 'n', 'i', 't', 'y']
  by_cases hn : 3 < commonPrefixLenIgnoreCase s ['i', 'n', 'f', 'i', 'n', 'i', 't', 'y'] ∧
      commonPrefixLenIgnoreCase s ['i', 'n', 'f', 'i', 'n', 'i', 't', 'y'] < 8
  · rw [if_pos hn] at h
    simp only [true_or, if_true, Option.some.injEq] at h
    subst h
    simp only at hl
    omega
  · rw [if_neg hn] at h
    split at h
    · simp only [Option.some.injEq] at h
      subst h
      simp only at hl
      exact commonPrefix_full s ['i', 'n', 'f', 'i', 'n', 'i', 't', 'y'] (by omega) (by decide)
    · exact absurd h (by simp)

theorem special_ok (s : GoString) (r : F64 × Nat) (h : special s = some r)
    (hl : r.2 = s.length) : ∀ c ∈ s, okChar c := by
  cases s with
  | nil => simp
  | cons c s =>
    simp only [special] at h
    split at h
    · next hc =>
      have hs := specialInf_ok _ 1 s r h (by simp only [List.length_cons] at hl; omega)
      intro d hd
      rcases List.mem_cons.mp hd with rfl | hd
      · rcases hc with rfl | rfl <;> decide
      · exact hs d hd
    · split at h
      · exact specialInf_ok _ 0 (c :: s) r h (by omega)
      · split at h
        · split at h
          · next hn =>
            simp only [Option.some.injEq] at h
            subst h
            simp only at hl
            exact commonPrefix_full (c :: s) ['n', 'a', 'n'] (by omega) (by decide)
          · exact absurd h (by simp)
        · exact absurd h (by simp)

/-- A text that `strconv.ParseFloat` accepts is a token: it is not empty and
holds no white space and no bracket. -/
theorem parseFloat_isToken (s : GoString) (v : F64) (h : ParseFloat s = some v) :
    isToken s := by
  refine ⟨?_, ?_⟩
  · rintro rfl
    have : ParseFloat [] = none := by decide
    rw [this] at h
    exact absurd h (by simp)
  · unfold ParseFloat at h
    split at h
    · next r hr =>
      split at h
      · next hl => exact special_ok s r hr hl
      · exact absurd h (by simp)
    · split at h
      · exact absurd h (by simp)
      · next r hr =>
        split at h
        · exact absurd h (by simp)
        · next hrest =>
          obtain ⟨pre, h1, hp⟩ := readFloat_ok s r hr
          have hnil : r.2 = [] := by simpa using hrest
          rw [hnil, List.append_nil] at h1
          rw [h1]
          exact hp


theorem tokenGroups_of_inputs (gs : Groups) (xs : List Point)
    (h : gs.map inputPoint = xs.map some) : tokenGroups gs := by
  intro g hg
  have hm : inputPoint g ∈ xs.map some := by
    rw [← h]
    exact List.mem_map_of_mem inputPoint hg
  obtain ⟨x, _, hx⟩ := List.mem_map.mp hm
  unfold inputPoint at hx
  cases h1 : ParseFloat g.1 with
  | none => rw [h1] at hx; exact absurd hx (by simp)
  | some a =>
    cases h2 : ParseFloat g.2 with
    | none => rw [h1, h2] at hx; exact absurd hx (by simp)
    | some b => exact ⟨parseFloat_isToken g.1 a h1, parseFloat_isToken g.2 b h2⟩

theorem tokenGroups_of_numeric (gs : Groups) (h : ∀ g ∈ gs, numericB g = true) :
    tokenGroups gs := by
  intro g hg
  have hn := h g hg
  simp only [numericB, Bool.and_eq_true] at hn
  obtain ⟨a, ha⟩ := Option.isSome_iff_exists.mp hn.1
  obtain ⟨b, hb⟩ := Option.isSome_iff_exists.mp hn.2
  exact ⟨parseFloat_isToken g.1 a ha, parseFloat_isToken g.2 b hb⟩

/-! ## Lemmas on the string functions -/

theorem render_cons_eq (g : GoString × GoString) (gs : Groups) :
    render (g :: gs) = '[' :: (inner (g :: gs) ++ [']']) := by
  induction gs generalizing g with
  | nil => simp [render, inner]
  | cons g2 gs ih =>
    have h := ih g2
    simp only [render] at h ⊢
    simp [inner, h]

theorem trimPrefix_cons (s : GoString) : TrimPrefix ('[' :: s) ['['] = s := by
  simp [TrimPrefix, List.isPrefixOf]

theorem trimSuffix_append (s : GoString) : TrimSuffix (s ++ [']']) [']'] = s := by
  have h : List.isSuffixOf [']'] (s ++ [']']) = true := by
    rw [List.isSuffixOf_iff_suffix]; exact List.suffix_append s _
  simp [TrimSuffix, h]

theorem trim_render (g : GoString × GoString) (gs : Groups) :
    TrimSuffix (TrimPrefix (render (g :: gs)) ['[']) [']'] = inner (g :: gs) := by
  rw [render_cons_eq, trimPrefix_cons, trimSuffix_append]


theorem splitGo_plain (p cur : GoString) (h : ∀ c ∈ p, c ≠ ']') :
    splitGo [']', '['] p 0 cur = [cur ++ p] := by
  induction p generalizing cur with
  | nil => simp [splitGo]
  | cons c p ih =>
    have hc : (']' == c) = false := by
      have := h c (by simp)
      simpa using fun e => this e.symm
    have hp : ∀ d ∈ p, d ≠ ']' := fun d hd => h d (by simp [hd])
    simp [splitGo, List.isPrefixOf, hc, ih _ hp]

theorem splitGo_sep (p rest cur : GoString) (h : ∀ c ∈ p, c ≠ ']') :
    splitGo [']', '['] (p ++ ']' :: '[' :: rest) 0 cur
      = (cur ++ p) :: splitGo [']', '['] rest 0 [] := by
  induction p generalizing cur with
  | nil => simp [splitGo, List.isPrefixOf]
  | cons c p ih =>
    have hc : (']' == c) = false := by
      have := h c (by simp)
      simpa using fun e => this e.symm
    have hp : ∀ d ∈ p, d ≠ ']' := fun d hd => h d (by simp [hd])
    simp [splitGo, List.isPrefixOf, hc, ih _ hp]

theorem chunk_noBracket (g : GoString × GoString) (h : isToken g.1 ∧ isToken g.2) :
    ∀ c ∈ chunk g, c ≠ ']' := by
  intro c hc
  simp only [chunk, List.mem_append, List.mem_cons] at hc
  rcases hc with hc | hc | hc
  · exact (h.1.2 c hc).2.2
  · subst hc; decide
  · exact (h.2.2 c hc).2.2

theorem splitGo_inner (g : GoString × GoString) (gs : Groups)
    (h : tokenGroups (g :: gs)) :
    splitGo [']', '['] (inner (g :: gs)) 0 [] = (g :: gs).map chunk := by
  induction gs generalizing g with
  | nil =>
    have := splitGo_plain (chunk g) [] (chunk_noBracket g (h g (by simp)))
    simpa [inner, chunk] using this
  | cons g2 gs ih =>
    have h2 : tokenGroups (g2 :: gs) := fun x hx => h x (List.mem_cons_of_mem _ hx)
    have := splitGo_sep (chunk g) (inner (g2 :: gs)) [] (chunk_noBracket g (h g (by simp)))
    have e : inner (g :: g2 :: gs) = chunk g ++ ']' :: '[' :: inner (g2 :: gs) := by
      simp [inner, chunk]
    rw [e, this, ih g2 h2]
    simp

theorem fieldsGo_run (x rest cur : GoString) (h : ∀ c ∈ x, isSpace c = false) :
    fieldsGo (x ++ rest) cur = fieldsGo rest (cur ++ x) := by
  induction x generalizing cur with
  | nil => simp
  | cons c x ih =>
    have hc : isSpace c = false := h c (by simp)
    have hx : ∀ d ∈ x, isSpace d = false := fun d hd => h d (by simp [hd])
    simp [fieldsGo, hc, ih _ hx]

theorem fields_chunk (g : GoString × GoString) (h : isToken g.1 ∧ isToken g.2) :
    Fields (chunk g) = [g.1, g.2] := by
  obtain ⟨⟨hx0, hx⟩, ⟨hy0, hy⟩⟩ := h
  have h1 := fieldsGo_run g.1 (' ' :: g.2) [] (fun c hc => (hx c hc).1)
  have h2 := fieldsGo_run g.2 [] [] (fun c hc => (hy c hc).1)
  have hsp : isSpace ' ' = true := by decide
  simp only [List.append_nil, List.nil_append] at h1 h2
  simp [Fields, chunk, h1, fieldsGo, hsp, hx0, h2, hy0]

theorem parsePair_chunk (coords : List Point) (g : GoString × GoString)
    (h : isToken g.1 ∧ isToken g.2) :
    parsePair coords (chunk g) = coords ++ (convert g).toList := by
  simp only [parsePair, fields_chunk g h, convert]
  cases ParseFloat g.1 <;> cases ParseFloat g.2 <;> simp

theorem foldl_parsePair (gs : Groups) (coords : List Point) (h : tokenGroups gs) :
    (gs.map chunk).foldl parsePair coords = coords ++ gs.filterMap convert := by
  induction gs generalizing coords with
  | nil => simp
  | cons g gs ih =>
    have h2 : tokenGroups gs := fun x hx => h x (List.mem_cons_of_mem _ hx)
    simp only [List.map_cons, List.foldl_cons, parsePair_chunk coords g (h g (by simp)), ih _ h2]
    cases hc : convert g <;> simp [List.filterMap_cons, hc]

/-- On a text made of two-token groups, the loop of `ParseCoordinates` collects
the points of the groups that convert, in order. -/
theorem parsePoints_render (gs : Groups) (h : tokenGroups gs) :
    parsePoints (render gs) = gs.filterMap convert := by
  cases gs with
  | nil => rfl
  | cons g gs =>
    have hs : Split (inner (g :: gs)) [']', '['] = (g :: gs).map chunk := by
      simp only [Split]
      rw [if_neg (by simp), splitGo_inner g gs h]
    simp only [parsePoints, trim_render, hs, foldl_parsePair (g :: gs) [] h, List.nil_append]

theorem parseCoordinates_render (gs : Groups) (h : tokenGroups gs) :
    ParseCoordinates (render gs) = closeRing (gs.filterMap convert) := by
  simp only [ParseCoordinates, parsePoints_render gs h]

theorem closeRing_eq (coords : List Point) :
    closeRing coords = if ringClosed coords then coords else coords ++ coords.head?.toList := by
  cases coords with
  | nil => rfl
  | cons p ps =>
    cases hl : (p :: ps).getLast? with
    | none => simp at hl
    | some l =>
      simp only [closeRing, ringClosed, List.head?_cons, hl, Option.toList]
      cases pointEq p l <;> simp

theorem convert_eq (g : GoString × GoString) : convert g = (inputPoint g).map toCm := by
  simp only [convert, inputPoint]
  cases ParseFloat g.1 <;> cases ParseFloat g.2 <;> rfl

theorem filterMap_convert (gs : Groups) (xs : List Point)
    (h : gs.map inputPoint = xs.map some) : gs.filterMap convert = xs.map toCm := by
  induction gs generalizing xs with
  | nil =>
    cases xs with
    | nil => rfl
    | cons x xs => simp at h
  | cons g gs ih =>
    cases xs with
    | nil => simp at h
    | cons x xs =>
      simp only [List.map_cons, List.cons.injEq] at h
      simp [List.filterMap_cons, convert_eq, h.1, ih xs h.2]


theorem F64.eq_self (x : F64) (h : x ≠ F64.nan) : F64.eq x x = true := by
  cases x with
  | nan => exact absurd rfl h
  | inf a => simp [F64.eq]
  | fin a m e => simp [F64.eq]

theorem pointEq_self (p : Point) (h1 : p.1 ≠ F64.nan) (h2 : p.2 ≠ F64.nan) :
    pointEq p p = true := by
  simp [pointEq, F64.eq_self, h1, h2]

theorem closeRing_closed (coords : List Point) : closedUpToNaN (closeRing coords) := by
  cases coords with
  | nil => exact Or.inl rfl
  | cons p ps =>
    rw [closeRing_eq]
    cases h : ringClosed (p :: ps) with
    | true =>
      rw [if_pos rfl]
      exact Or.inl h
    | false =>
      rw [if_neg (by decide)]
      have hh : (p :: ps ++ (p :: ps).head?.toList).head? = some p := rfl
      have hl : (p :: ps ++ (p :: ps).head?.toList).getLast? = some p := by
        rw [List.getLast?_append]; rfl
      by_cases hn : p.1 = F64.nan ∨ p.2 = F64.nan
      · exact Or.inr ⟨p, hh, hl, hn⟩
      · have h1 : p.1 ≠ F64.nan := fun e => hn (Or.inl e)
        have h2 : p.2 ≠ F64.nan := fun e => hn (Or.inr e)
        left
        simp only [ringClosed, hh, hl]
        exact pointEq_self p h1 h2

theorem spacesOfMatches_eq (ms : List (List GoString)) :
    spacesOfMatches ms
      = ms.map (fun m => { Title := m.getD 1 [], Path := ParseCoordinates (m.getD 2 []) }) := by
  have key : ∀ (acc : List (Space F64)),
      ms.foldl (fun spaces m =>
        spaces ++ [{ Title := m.getD 1 [], Path := ParseCoordinates (m.getD 2 []) }]) acc
      = acc ++ ms.map (fun m =>
          { Title := m.getD 1 [], Path := ParseCoordinates (m.getD 2 []) }) := by
    induction ms with
    | nil => intro acc; simp
    | cons m ms ih =>
      intro acc
      simp only [List.foldl_cons, ih, List.map_cons, List.append_assoc, List.singleton_append]
  simpa [spacesOfMatches] using key []

theorem convert_isSome (g : GoString × GoString) : (convert g).isSome = numericB g := by
  simp only [convert, numericB]
  cases ParseFloat g.1 <;> cases ParseFloat g.2 <;> rfl

theorem filterMap_convert_filter (gs : Groups) :
    (gs.filter numericB).filterMap convert = gs.filterMap convert := by
  induction gs with
  | nil => rfl
  | cons g gs ih =>
    have hc := convert_isSome g
    cases hn : numericB g with
    | true => simp [List.filter_cons, hn, List.filterMap_cons, ih]
    | false =>
      rw [hn] at hc
      have : convert g = none := by simpa using hc
      simp [List.filter_cons, hn, List.filterMap_cons, ih, this]

theorem length_filterMap_convert (gs : Groups) :
    (gs.filterMap convert).length + gs.countP (fun g => !numericB g) = gs.length := by
  induction gs with
  | nil => rfl
  | cons g gs ih =>
    have hc := convert_isSome g
    cases hn : numericB g with
    | true =>
      rw [hn] at hc
      obtain ⟨p, hp⟩ := Option.isSome_iff_exists.mp hc
      simp [List.filterMap_cons, hp, List.countP_cons, hn]
      omega
    | false =>
      rw [hn] at hc
      have : convert g = none := by simpa using hc
      simp [List.filterMap_cons, this, List.countP_cons, hn]
      omega

theorem subset_closeRing (coords : List Point) (p : Point) (h : p ∈ coords) :
    p ∈ closeRing coords := by
  rw [closeRing_eq]
  split <;> simp [h]

/-! ## Lemmas on the conversion -/

theorem F64.round_zero (neg : Bool) (d : Nat) : F64.round neg 0 d = F64.fin neg 0 0 := by
  have h0 : (0 : Nat) <<< 1074 = 0 := Nat.zero_shiftLeft 1074
  simp only [F64.round, h0, F64.log2_zero, Nat.zero_sub, Nat.zero_div, Nat.zero_mod,
    Nat.shiftLeft_zero]
  simp

theorem F64.round_ne_nan (neg : Bool) (n d : Nat) : F64.round neg n d ≠ F64.nan := by
  unfold F64.round
  simp only []
  split_ifs <;> exact fun h => F64.noConfusion h

theorem F64.factor_eq :
    F64.div (F64.ofRatio 254 10) dpi72 = F64.fin false 6355079474178366 1020 ∧
    F64.ofRatio 10 1 = F64.fin false 5629499534213120 1025 := by
  decide

theorem PointsToCm_ne_nan (a : F64) (h : a ≠ F64.nan) : PointsToCm a dpi72 ≠ F64.nan := by
  unfold PointsToCm
  rw [F64.factor_eq.1, F64.factor_eq.2]
  cases a with
  | nan => exact absurd rfl h
  | inf s => simp [F64.mul, F64.div]
  | fin s m e =>
    simp only [F64.mul]
    cases hr : F64.round (xor s false) ((m * 6355079474178366) <<< (e + 1020)) (1 <<< 2148) with
    | nan => exact absurd hr (F64.round_ne_nan _ _ _)
    | inf t => simp [F64.div]
    | fin t m2 e2 =>
      simp only [F64.div]
      rw [if_neg (by norm_num)]
      exact F64.round_ne_nan _ _ _

theorem PointsToCm_zero (s : Bool) (e : Nat) :
    PointsToCm (F64.fin s 0 e) dpi72 = F64.fin s 0 0 := by
  unfold PointsToCm
  rw [F64.factor_eq.1, F64.factor_eq.2]
  simp only [F64.mul, Nat.zero_mul, Nat.zero_shiftLeft, F64.round_zero, F64.div]
  rw [if_neg (by norm_num)]
  simp [F64.round_zero]

theorem PointsToCm_eq (a b : F64) (h : F64.eq a b = true) :
    F64.eq (PointsToCm a dpi72) (PointsToCm b dpi72) = true := by
  cases a with
  | nan => simp [F64.eq] at h
  | inf s =>
    cases b with
    | nan => simp [F64.eq] at h
    | fin _ _ _ => simp [F64.eq] at h
    | inf t =>
      have hst : s = t := by simpa [F64.eq] using h
      subst hst
      exact F64.eq_self _ (PointsToCm_ne_nan _ (by simp))
  | fin s m e =>
    cases b with
    | nan => simp [F64.eq] at h
    | inf _ => simp [F64.eq] at h
    | fin t m2 e2 =>
      simp only [F64.eq, Bool.or_eq_true, Bool.and_eq_true, beq_iff_eq] at h
      rcases h with ⟨h1, h2⟩ | ⟨⟨h1, h2⟩, h3⟩
      · subst h1 h2
        rw [PointsToCm_zero, PointsToCm_zero]
        simp [F64.eq]
      · subst h1 h2 h3
        exact F64.eq_self _ (PointsToCm_ne_nan _ (by simp))

theorem pointEq_toCm (p q : Point) (h : pointEq p q = true) :
    pointEq (toCm p) (toCm q) = true := by
  simp only [pointEq, Bool.and_eq_true] at h ⊢
  exact ⟨PointsToCm_eq _ _ h.1, PointsToCm_eq _ _ h.2⟩

theorem ringClosed_map_toCm (xs : List Point) (h : ringClosed xs = true) :
    ringClosed (xs.map toCm) = true := by
  cases xs with
  | nil => rfl
  | cons x xs =>
    cases hl : (x :: xs).getLast? with
    | none => simp at hl
    | some l =>
      have hl2 : ((x :: xs).map toCm).getLast? = some (toCm l) := by
        rw [List.getLast?_map, hl]; rfl
      simp only [ringClosed, List.head?_cons, hl] at h
      simp only [ringClosed, List.map_cons, List.head?_cons]
      rw [← List.map_cons, hl2]
      exact pointEq_toCm x l h

/-! ## Lemmas on the geometry -/

section GeometryLemmas

variable {K : Type} [LinearOrderedField K]

theorem ringSum_rotate {α : Type} (f : α → α → K) (l : List α) (k : Nat) :
    ringSum f (l.rotate k) = ringSum f l := by
  unfold ringSum
  rw [List.rotate_rotate, Nat.add_comm, ← List.rotate_rotate,
    ← List.zipWith_rotate_distrib f l (l.rotate 1) k (by simp)]
  exact (List.rotate_perm _ _).sum_eq

theorem ringSum_closeOf {α : Type} (f : α → α → K) (p : α) (t : List α) :
    ringSum f (closeOf (p :: t)) = ringSum f (p :: t) + f p p := by
  unfold ringSum closeOf
  have e1 : (p :: t ++ (p :: t).head?.toList) = (p :: t) ++ [p] := rfl
  have e2 : ((p :: t) ++ [p]).rotate 1 = (t ++ [p]) ++ [p] := by
    simp [List.rotate_cons_succ]
  have e3 : (p :: t).rotate 1 = t ++ [p] := by simp [List.rotate_cons_succ]
  rw [e1, e2, e3, List.zipWith_append _ _ _ _ _ (by simp)]
  simp

theorem ringSum_reverse {α : Type} (f : α → α → K) (l : List α) :
    ringSum f l.reverse = ringSum (fun a b => f b a) l := by
  unfold ringSum
  cases l with
  | nil => simp
  | cons x t =>
    have hj : ((x :: t).length - 1 % (x :: t).length + 1) % (x :: t).length = 0 := by
      cases t with
      | nil => simp
      | cons y t =>
        have h1 : 1 % (x :: y :: t).length = 1 := Nat.mod_eq_of_lt (by simp)
        rw [h1]
        have h2 : (x :: y :: t).length - 1 + 1 = (x :: y :: t).length := by simp
        rw [h2, Nat.mod_self]
    have hr : (x :: t).rotate ((x :: t).length - 1 % (x :: t).length + 1) = x :: t := by
      rw [← List.rotate_mod, hj, List.rotate_zero]
    rw [List.rotate_reverse, ← List.reverse_zipWith (by simp), List.sum_reverse,
      ← (List.rotate_perm (List.zipWith f (x :: t) _) 1).sum_eq,
      List.zipWith_rotate_distrib f _ _ 1 (by simp), List.rotate_rotate, hr, List.zipWith_comm]

theorem cross_swap (p q : K × K) : cross q p = - cross p q := by
  unfold cross; ring

theorem sum_zipWith_neg {α : Type} (f : α → α → K) (l l2 : List α) :
    (List.zipWith (fun a b => - f a b) l l2).sum = - (List.zipWith f l l2).sum := by
  induction l generalizing l2 with
  | nil => simp
  | cons a l ih =>
    cases l2 with
    | nil => simp
    | cons b l2 => simp [ih]; ring

theorem planarArea_reverse (path : List (K × K)) :
    planarArea path.reverse = planarArea path := by
  unfold planarArea
  rw [ringSum_reverse]
  have : (fun a b : K × K => cross b a) = fun a b => - cross a b := by
    funext a b; exact cross_swap a b
  rw [this]
  unfold ringSum
  rw [sum_zipWith_neg, abs_neg]

theorem sum_zipWith_shift {α : Type} (f : α → α → K) (d : α) (p q : α) (t : List α) :
    (List.zipWith f (p :: t) (t ++ [q])).sum
      = (Finset.range t.length).sum
          (fun i => f ((p :: t).getD i d) ((p :: t).getD (i + 1) d))
        + f ((p :: t).getD t.length d) q := by
  induction t generalizing p with
  | nil => simp
  | cons a t ih =>
    have := ih a
    simp only [List.cons_append, List.zipWith_cons_cons, List.sum_cons, this, List.length_cons]
    rw [Finset.sum_range_succ']
    simp [List.getD_cons_succ]
    ring

end GeometryLemmas

/-! ## Lemmas on the regular expression -/

theorem isPrefixOf_append_more (lit x more : GoString) (h : lit.length ≤ x.length) :
    lit.isPrefixOf (x ++ more) = lit.isPrefixOf x := by
  rw [Bool.eq_iff_iff]
  simp only [List.isPrefixOf_iff_prefix]
  rw [List.prefix_iff_eq_take, List.prefix_iff_eq_take, List.take_append_of_le_length h]

theorem startsIn_append (lit s more : GoString) :
    startsIn lit s (lit ++ more) = startsIn lit s lit := by
  induction s with
  | nil => rfl
  | cons c s ih =>
    have h := isPrefixOf_append_more lit (c :: s ++ lit) more
      (by simp only [List.cons_append, List.length_cons, List.length_append]; omega)
    simp only [List.append_assoc] at h
    simp only [startsIn, ih, h]

theorem lazyGo_here (capture : Bool) (k : GoString → MatchResult) (t taken : GoString)
    (r : List GoString × GoString) (h : k t = some r) :
    lazyGo capture k t taken = some (if capture then taken :: r.1 else r.1, r.2) := by
  cases t <;> simp [lazyGo, h]

/-- When the rest of the expression fails at every position inside `s` and `s`
has no newline, `.*?` takes the whole of `s`. -/
theorem lazyGo_field (capture : Bool) (k : GoString → MatchResult) (lit s next : GoString)
    (r : List GoString × GoString)
    (hk : ∀ x, lit.isPrefixOf x = false → k x = none)
    (hn : s.contains '\n' = false) (hs : startsIn lit s next = false)
    (hkt : k next = some r) (taken : GoString) :
    lazyGo capture k (s ++ next) taken
      = some (if capture then (taken ++ s) :: r.1 else r.1, r.2) := by
  induction s generalizing taken with
  | nil => simpa using lazyGo_here capture k next taken r hkt
  | cons c s ih =>
    simp only [startsIn, Bool.or_eq_false_iff] at hs
    have hc : c ≠ '\n' := by
      intro e
      subst e
      simp at hn
    have hn2 : s.contains '\n' = false := by
      simp only [List.contains_eq_any_beq, List.any_eq_false] at hn ⊢
      intro x hx
      exact hn x (List.mem_cons_of_mem _ hx)
    have h1 : k (c :: (s ++ next)) = none := hk _ (by simpa using hs.1)
    show lazyGo capture k (c :: (s ++ next)) taken = _
    simp only [lazyGo, h1, if_neg hc]
    rw [ih hn2 hs.2]
    simp

theorem matchPieces_lit (lit : GoString) (ps : List Piece) (x : GoString) :
    matchPieces (Piece.lit lit :: ps) (lit ++ x) = matchPieces ps x := by
  have h : lit.isPrefixOf (lit ++ x) = true := by
    rw [List.isPrefixOf_iff_prefix]
    exact List.prefix_append _ _
  simp [matchPieces, h]

theorem matchPieces_lit_none (lit : GoString) (ps : List Piece) (x : GoString)
    (h : lit.isPrefixOf x = false) : matchPieces (Piece.lit lit :: ps) x = none := by
  simp [matchPieces, h]

/-- A field that is `fieldOK` for the literal after it is what `.*?` takes. -/
theorem matchPieces_field (capture : Bool) (lit : GoString) (ps : List Piece)
    (s more : GoString) (r : List GoString × GoString) (hs : fieldOK lit s = true)
    (hr : matchPieces ps more = some r) :
    matchPieces (Piece.lazyAny capture :: Piece.lit lit :: ps) (s ++ (lit ++ more))
      = some (if capture then s :: r.1 else r.1, r.2) := by
  simp only [fieldOK, Bool.and_eq_true, Bool.not_eq_true'] at hs
  have h := lazyGo_field capture (fun t => matchPieces (Piece.lit lit :: ps) t) lit s
    (lit ++ more) r (fun x hx => matchPieces_lit_none lit ps x hx) hs.1
    (by rw [startsIn_append]; exact hs.2) (by simpa [matchPieces_lit] using hr) []
  simpa [matchPieces] using h

/-- The expression matches a well-formed record at its start, capturing the
title and the path, and stops at the end of the record. -/
theorem matchPieces_record (r : Record) (h : r.wellFormed = true) (rest : GoString) :
    matchPieces pattern (r.text ++ rest) = some ([r.title, r.path], rest) := by
  simp only [Record.wellFormed, Bool.and_eq_true] at h
  obtain ⟨⟨⟨ht, hp⟩, hc⟩, ho⟩ := h
  have e : r.text ++ rest = titleOpen ++ (r.title ++ (pathOpen ++ (r.path ++ (colourOpen ++
      (r.colour ++ (opacityOpen ++ (r.opacity ++ (recordEnd ++ rest)))))))) := by
    simp [Record.text]
  have h5 : matchPieces [Piece.lit recordEnd] (recordEnd ++ rest) = some ([], rest) := by
    rw [matchPieces_lit]; rfl
  have h4 := matchPieces_field false recordEnd [] r.opacity rest ([], rest) ho rfl
  have h3 := matchPieces_field false opacityOpen _ r.colour _ _ hc h4
  have h2 := matchPieces_field true colourOpen _ r.path _ _ hp h3
  have h1 := matchPieces_field true pathOpen _ r.title _ _ ht h2
  rw [e, pattern, matchPieces_lit, h1]
  rfl

theorem findGo_skip (ps : List Piece) (x y : GoString) :
    findGo ps (x ++ y) x.length = findGo ps y 0 := by
  induction x with
  | nil => rfl
  | cons c x ih => simpa [findGo] using ih

theorem findGo_none (ps : List Piece) (s : GoString)
    (h : ∀ t ∈ s.tails, matchPieces ps t = none) : findGo ps s 0 = [] := by
  induction s with
  | nil => rfl
  | cons c s ih =>
    have h1 : matchPieces ps (c :: s) = none := h _ (by simp)
    have h2 : ∀ t ∈ s.tails, matchPieces ps t = none := fun t ht => h t (by simp [ht])
    simp [findGo, h1, ih h2]

/-- The search passes over a text in which the opening literal does not begin. -/
theorem findGo_pre (lit : GoString) (ps : List Piece) (pre next : GoString)
    (h : startsIn lit pre next = false) :
    findGo (Piece.lit lit :: ps) (pre ++ next) 0 = findGo (Piece.lit lit :: ps) next 0 := by
  induction pre with
  | nil => rfl
  | cons c pre ih =>
    simp only [startsIn, Bool.or_eq_false_iff] at h
    have h1 := matchPieces_lit_none lit ps (c :: (pre ++ next)) (by simpa using h.1)
    show findGo (Piece.lit lit :: ps) (c :: (pre ++ next)) 0 = _
    simp only [findGo, h1]
    exact ih h.2

/-- A match at the start of the text is recorded, and the search goes on after it. -/
theorem findGo_match (ps : List Piece) (m after : GoString) (groups : List GoString)
    (hm : m ≠ []) (h : matchPieces ps (m ++ after) = some (groups, after)) :
    findGo ps (m ++ after) 0 = (m :: groups) :: findGo ps after 0 := by
  cases m with
  | nil => exact absurd rfl hm
  | cons c m =>
    have h1 : matchPieces ps (c :: (m ++ after)) = some (groups, after) := h
    have e1 : (c :: (m ++ after)).length - after.length = m.length + 1 := by
      simp only [List.length_cons, List.length_append]; omega
    show findGo ps (c :: (m ++ after)) 0 = _
    simp only [findGo, h1, e1, Nat.add_sub_cancel, findGo_skip]
    simp

theorem record_text_ne_nil (r : Record) : r.text ≠ [] := by
  simp [Record.text, titleOpen]

theorem record_text_eq (r : Record) (rest : GoString) :
    r.text ++ rest = titleOpen ++ (r.title ++ pathOpen ++ r.path ++ colourOpen ++ r.colour
      ++ opacityOpen ++ r.opacity ++ recordEnd ++ rest) := by
  simp [Record.text]

/-- The search finds a well-formed record before which the opening literal does
not begin. -/
theorem findGo_record (pre : GoString) (r : Record) (after : GoString)
    (hpre : startsIn titleOpen pre titleOpen = false) (hr : r.wellFormed = true) :
    findGo pattern (pre ++ (r.text ++ after)) 0
      = [r.text, r.title, r.path] :: findGo pattern after 0 := by
  have h1 : startsIn titleOpen pre (r.text ++ after) = false := by
    rw [record_text_eq, startsIn_append]; exact hpre
  have h2 := findGo_pre titleOpen pattern.tail pre (r.text ++ after) h1
  have e : Piece.lit titleOpen :: pattern.tail = pattern := rfl
  rw [e] at h2
  rw [h2, findGo_match pattern r.text after [r.title, r.path] (record_text_ne_nil r)
    (matchPieces_record r hr after)]

/-- The search finds nothing in a text in which the opening literal does not
occur. -/
theorem findGo_post (post : GoString) (h : startsIn titleOpen post [] = false) :
    findGo pattern post 0 = [] := by
  have h2 := findGo_pre titleOpen pattern.tail post [] h
  have e : Piece.lit titleOpen :: pattern.tail = pattern := rfl
  rw [e, List.append_nil] at h2
  rw [h2]; rfl

/-! ## Lemmas on `splitFilePath` -/

theorem splitGo_char (sep c : Char) (s cur : GoString) :
    splitGo [sep] (c :: s) 0 cur
      = if c = sep then cur :: splitGo [sep] s 0 [] else splitGo [sep] s 0 (cur ++ [c]) := by
  by_cases h : c = sep
  · subst h; simp [splitGo, List.isPrefixOf]
  · have h2 : (sep == c) = false := by simpa using fun e => h e.symm
    simp [splitGo, List.isPrefixOf, h, h2]

theorem splitGo_noSep (sep : Char) (p cur : GoString) (h : sep ∉ p) :
    splitGo [sep] p 0 cur = [cur ++ p] := by
  induction p generalizing cur with
  | nil => simp [splitGo]
  | cons c p ih =>
    have hc : c ≠ sep := fun e => h (by simp [e])
    have hp : sep ∉ p := fun e => h (List.mem_cons_of_mem _ e)
    rw [splitGo_char, if_neg hc, ih _ hp]
    simp

theorem splitGo_last (sep : Char) (a name cur : GoString) (h : sep ∉ name) :
    splitGo [sep] (a ++ sep :: name) 0 cur = splitGo [sep] a 0 cur ++ [name] := by
  induction a generalizing cur with
  | nil =>
    show splitGo [sep] (sep :: name) 0 cur = _
    rw [splitGo_char, if_pos rfl, splitGo_noSep sep name [] h]
    simp [splitGo]
  | cons c a ih =>
    show splitGo [sep] (c :: (a ++ sep :: name)) 0 cur = _
    rw [splitGo_char, splitGo_char]
    by_cases hc : c = sep
    · rw [if_pos hc, if_pos hc, ih]; rfl
    · rw [if_neg hc, if_neg hc, ih]

theorem flatten_splitGo (sep : Char) (a cur : GoString) :
    ((splitGo [sep] a 0 cur).map (fun x => [sep] ++ x)).flatten = sep :: (cur ++ a) := by
  induction a generalizing cur with
  | nil => simp [splitGo]
  | cons c a ih =>
    rw [splitGo_char]
    by_cases hc : c = sep
    · rw [if_pos hc]
      simp only [List.map_cons, List.flatten_cons, ih]
      simp [hc]
    · rw [if_neg hc, ih]; simp

theorem join_splitGo (sep : Char) (a cur : GoString) :
    Join (splitGo [sep] a 0 cur) [sep] = cur ++ a := by
  induction a generalizing cur with
  | nil => simp [splitGo, Join]
  | cons c a ih =>
    rw [splitGo_char]
    by_cases hc : c = sep
    · rw [if_pos hc]
      simp only [Join, flatten_splitGo]
      simp [hc]
    · rw [if_neg hc, ih]; simp

/-- A path with a separator splits into the text before its last separator and
the text after it. -/
theorem splitFilePath_dir (sep : Char) (dir name : GoString) (h : sep ∉ name) :
    splitFilePath sep (dir ++ sep :: name) = (dir, name) := by
  have hs : Split (dir ++ sep :: name) [sep] = splitGo [sep] dir 0 [] ++ [name] := by
    simp only [Split]
    rw [if_neg (by simp), splitGo_last sep dir name [] h]
  simp only [splitFilePath, hs, List.dropLast_concat]
  rw [join_splitGo]
  simp

/-- A path without separator splits into the empty directory and itself. -/
theorem splitFilePath_bare (sep : Char) (path : GoString) (h : sep ∉ path) :
    splitFilePath sep path = ([], path) := by
  have hs : Split path [sep] = [path] := by
    simp only [Split]
    rw [if_neg (by simp), splitGo_noSep sep path [] h]; rfl
  simp [splitFilePath, hs, Join]

theorem trimSuffix_append_eq (s suf : GoString) : TrimSuffix (s ++ suf) suf = s := by
  have h : List.isSuffixOf suf (s ++ suf) = true := by
    rw [List.isSuffixOf_iff_suffix]; exact List.suffix_append s _
  simp [TrimSuffix, h]

theorem trimSuffix_not (s suf : GoString) (h : ¬ suf <:+ s) : TrimSuffix s suf = s := by
  have h2 : List.isSuffixOf suf s = false := by
    rw [← Bool.not_eq_true, List.isSuffixOf_iff_suffix]; exact h
  simp [TrimSuffix, h2]

/-! ## Lemmas on the groups -/

theorem groupsText_cons_eq (b : GoString) (bs : List GoString) :
    groupsText (b :: bs) = '[' :: (Join (b :: bs) [']', '['] ++ [']']) := by
  induction bs generalizing b with
  | nil => simp [groupsText, Join]
  | cons b2 bs ih =>
    have h := ih b2
    simp only [groupsText] at h ⊢
    simp [Join, h]

theorem splitGo_join (b : GoString) (bs : List GoString)
    (h : ∀ x ∈ b :: bs, ∀ c ∈ x, c ≠ ']') :
    splitGo [']', '['] (Join (b :: bs) [']', '[']) 0 [] = b :: bs := by
  induction bs generalizing b with
  | nil =>
    have := splitGo_plain b [] (h b (by simp))
    simpa [Join] using this
  | cons b2 bs ih =>
    have h2 : ∀ x ∈ b2 :: bs, ∀ c ∈ x, c ≠ ']' := fun x hx => h x (List.mem_cons_of_mem _ hx)
    have e : Join (b :: b2 :: bs) [']', '['] = b ++ ']' :: '[' :: Join (b2 :: bs) [']', '['] := by
      simp [Join]
    rw [e, splitGo_sep b _ [] (h b (by simp)), ih b2 h2]
    simp

/-- On a text made of groups, the loop of `ParseCoordinates` handles the bodies
of the groups one after the other. -/
theorem parsePoints_groupsText (bs : List GoString) (h : ∀ x ∈ bs, ∀ c ∈ x, c ≠ ']') :
    parsePoints (groupsText bs) = bs.foldl parsePair [] := by
  cases bs with
  | nil => rfl
  | cons b bs =>
    have hs : Split (Join (b :: bs) [']', '[']) [']', '['] = b :: bs := by
      simp only [Split]
      rw [if_neg (by simp), splitGo_join b bs h]
    simp only [parsePoints, groupsText_cons_eq, trimPrefix_cons, trimSuffix_append, hs]

theorem parsePair_skip (coords : List Point) (body : GoString) (h : twoTokens body = false) :
    parsePair coords body = coords := by
  simp only [twoTokens, decide_eq_false_iff_not] at h
  unfold parsePair
  split
  · next px py hf => rw [hf] at h; simp at h
  · rfl

theorem foldl_parsePair_filter (bs : List GoString) (coords : List Point) :
    (bs.filter twoTokens).foldl parsePair coords = bs.foldl parsePair coords := by
  induction bs generalizing coords with
  | nil => rfl
  | cons b bs ih =>
    cases hb : twoTokens b with
    | true => simp [List.filter_cons, hb, ih]
    | false => simp [List.filter_cons, hb, ih, parsePair_skip coords b hb]

theorem render_groupsText (gs : Groups) : render gs = groupsText (gs.map chunk) := by
  induction gs with
  | nil => rfl
  | cons g gs ih => simp [render, groupsText, chunk, ih]

/-! ## Lemmas on the path of a record -/

theorem startsIn_append_left (lit a b next : GoString) :
    startsIn lit (a ++ b) next = (startsIn lit a (b ++ next) || startsIn lit b next) := by
  induction a with
  | nil => simp [startsIn]
  | cons c a ih =>
    show startsIn lit (c :: (a ++ b)) next = _
    simp [startsIn, ih, Bool.or_assoc]

theorem startsIn_colour_plain (a next : GoString) (h : ∀ c ∈ a, c ≠ ']') :
    startsIn colourOpen a next = false := by
  induction a with
  | nil => rfl
  | cons c a ih =>
    have hc : (']' == c) = false := by
      have := h c (by simp)
      simpa using fun e => this e.symm
    have ha : ∀ d ∈ a, d ≠ ']' := fun d hd => h d (by simp [hd])
    have hp : colourOpen.isPrefixOf (c :: a ++ next) = false := by
      simp [colourOpen, List.isPrefixOf, hc]
    simp only [startsIn, hp, ih ha, Bool.or_self]

theorem startsIn_colour_render (gs : Groups) (h : tokenGroups gs) :
    startsIn colourOpen (render gs) colourOpen = false := by
  induction gs with
  | nil => rfl
  | cons g gs ih =>
    have h2 : tokenGroups gs := fun x hx => h x (List.mem_cons_of_mem _ hx)
    have e : render (g :: gs) = ('[' :: chunk g) ++ (']' :: render gs) := by
      simp [render, chunk]
    have hb : ∀ c ∈ '[' :: chunk g, c ≠ ']' := by
      intro c hc
      rcases List.mem_cons.mp hc with hc | hc
      · subst hc; decide
      · exact chunk_noBracket g (h g (by simp)) c hc
    have hn : colourOpen.isPrefixOf (']' :: render gs ++ colourOpen) = false := by
      cases gs with
      | nil => decide
      | cons g2 gs => simp [render, colourOpen, List.isPrefixOf]
    rw [e, startsIn_append_left, startsIn_colour_plain _ _ hb]
    simp only [startsIn, hn, ih h2, Bool.or_self]

theorem okChar_ne_newline (c : Char) (h : okChar c) : c ≠ '\n' := by
  intro e
  subst e
  exact absurd h.1 (by decide)

theorem render_chars (gs : Groups) (h : tokenGroups gs) : ∀ c ∈ render gs, c ≠ '\n' := by
  induction gs with
  | nil => simp [render]
  | cons g gs ih =>
    have h2 : tokenGroups gs := fun x hx => h x (List.mem_cons_of_mem _ hx)
    have hg := h g (by simp)
    intro c hc
    simp only [render, List.mem_cons, List.mem_append] at hc
    rcases hc with hc | hc | hc | hc | hc | hc
    · subst hc; decide
    · exact okChar_ne_newline c (hg.1.2 c hc)
    · subst hc; decide
    · exact okChar_ne_newline c (hg.2.2 c hc)
    · subst hc; decide
    · exact ih h2 c hc

theorem render_noNewline (gs : Groups) (h : tokenGroups gs) :
    (render gs).contains '\n' = false := by
  simp only [List.contains_eq_any_beq, List.any_eq_false, beq_iff_eq]
  exact fun c hc e => render_chars gs h c hc e.symm

/-- The coordinate text of two-token groups is a field that `(.*?)\]/C\[`
captures whole. -/
theorem render_fieldOK (gs : Groups) (h : tokenGroups gs) :
    fieldOK colourOpen (render gs) = true := by
  simp only [fieldOK, render_noNewline gs h, startsIn_colour_render gs h]
  rfl

/-! ## Lemmas on what a match is -/

theorem lazyGo_isSome (capture : Bool) (k : GoString → MatchResult) (s t1 t2 : GoString) :
    (lazyGo capture k s t1).isSome = (lazyGo capture k s t2).isSome := by
  induction s generalizing t1 t2 with
  | nil => cases h : k [] <;> simp [lazyGo, h]
  | cons c s ih =>
    cases h : k (c :: s) with
    | some r => simp [lazyGo, h]
    | none =>
      by_cases hc : c = '\n'
      · subst hc; simp [lazyGo, h]
      · simp only [lazyGo, h, if_neg hc]
        exact ih _ _

/-- The search for `.*?` succeeds on a longer text when it succeeds on the text
without its first characters and these hold no newline. -/
theorem lazyGo_absorb (capture : Bool) (k : GoString → MatchResult) (u v t1 t2 : GoString)
    (hu : ∀ c ∈ u, c ≠ '\n') (h : (lazyGo capture k v t2).isSome = true) :
    (lazyGo capture k (u ++ v) t1).isSome = true := by
  induction u generalizing t1 with
  | nil => rw [List.nil_append, lazyGo_isSome capture k v t1 t2]; exact h
  | cons c u ih =>
    have hc : c ≠ '\n' := hu c (by simp)
    have hu2 : ∀ d ∈ u, d ≠ '\n' := fun d hd => hu d (by simp [hd])
    show (lazyGo capture k (c :: (u ++ v)) t1).isSome = true
    cases hk : k (c :: (u ++ v)) with
    | some r => simp [lazyGo, hk]
    | none =>
      simp only [lazyGo, hk, if_neg hc]
      exact ih _ hu2

/-- What a successful search for `.*?` found: the text `u` it took has no
newline, the rest of the expression matches after it and failed at every
position inside it. -/
theorem lazyGo_sound (capture : Bool) (k : GoString → MatchResult) (s taken : GoString)
    (r : List GoString × GoString) (h : lazyGo capture k s taken = some r) :
    ∃ u v r2, s = u ++ v ∧ k v = some r2 ∧
      r = (if capture then (taken ++ u) :: r2.1 else r2.1, r2.2) ∧ (∀ c ∈ u, c ≠ '\n') ∧
      ∀ a b, u = a ++ b → b ≠ [] → k (b ++ v) = none := by
  induction s generalizing taken with
  | nil =>
    cases hk : k [] with
    | none => simp [lazyGo, hk] at h
    | some r2 =>
      simp only [lazyGo, hk, Option.map_some', Option.some.injEq] at h
      refine ⟨[], [], r2, rfl, hk, ?_, by simp, ?_⟩
      · rw [← h]; simp
      · intro a b hab hb
        exact absurd (List.append_eq_nil.mp hab.symm).2 hb
  | cons c s ih =>
    cases hk : k (c :: s) with
    | some r2 =>
      simp only [lazyGo, hk, Option.some.injEq] at h
      refine ⟨[], c :: s, r2, rfl, hk, ?_, by simp, ?_⟩
      · rw [← h]; simp
      · intro a b hab hb
        exact absurd (List.append_eq_nil.mp hab.symm).2 hb
    | none =>
      by_cases hc : c = '\n'
      · subst hc; simp [lazyGo, hk] at h
      · simp only [lazyGo, hk, if_neg hc] at h
        obtain ⟨u, v, r2, hs, hkv, hr, hu, hfail⟩ := ih _ h
        refine ⟨c :: u, v, r2, by simp [hs], hkv, ?_, ?_, ?_⟩
        · rw [hr]; simp
        · intro d hd
          rcases List.mem_cons.mp hd with hd | hd
          · rw [hd]; exact hc
          · exact hu d hd
        · intro a b hab hb
          cases a with
          | nil =>
            simp only [List.nil_append] at hab
            rw [← hab, List.cons_append, ← hs]
            exact hk
          | cons a0 a =>
            simp only [List.cons_append, List.cons.injEq] at hab
            exact hfail a b hab.2 hb

theorem matchPieces_lit_sound (lit : GoString) (ps : List Piece) (s : GoString)
    (r : List GoString × GoString) (h : matchPieces (Piece.lit lit :: ps) s = some r) :
    ∃ x, s = lit ++ x ∧ matchPieces ps x = some r := by
  simp only [matchPieces] at h
  by_cases hp : lit.isPrefixOf s = true
  · rw [if_pos hp] at h
    obtain ⟨x, hx⟩ := List.isPrefixOf_iff_prefix.mp hp
    refine ⟨x, hx.symm, ?_⟩
    rw [← hx, List.drop_left] at h
    exact h
  · rw [if_neg hp] at h
    exact absurd h (by simp)

/-- Pieces that begin with `.*?` match on a longer text when they match on the
text without its first characters and these hold no newline. -/
theorem absorbs_lazyAny (capture : Bool) (ps : List Piece) (u v : GoString)
    (hu : ∀ c ∈ u, c ≠ '\n')
    (h : (matchPieces (Piece.lazyAny capture :: ps) v).isSome = true) :
    (matchPieces (Piece.lazyAny capture :: ps) (u ++ v)).isSome = true := by
  simp only [matchPieces] at h ⊢
  exact lazyGo_absorb capture _ u v [] [] hu h

/-- The field that `.*?` followed by `lit` takes in a match is `fieldOK`,
when the pieces after `lit` absorb the characters before them. -/
theorem matchPieces_field_sound (capture : Bool) (lit : GoString) (ps : List Piece)
    (s : GoString) (r : List GoString × GoString) (hl : ∀ c ∈ lit, c ≠ '\n')
    (ha : ∀ u v : GoString, (∀ c ∈ u, c ≠ '\n') → (matchPieces ps v).isSome = true →
      (matchPieces ps (u ++ v)).isSome = true)
    (h : matchPieces (Piece.lazyAny capture :: Piece.lit lit :: ps) s = some r) :
    ∃ u more r2, s = u ++ (lit ++ more) ∧ matchPieces ps more = some r2 ∧
      r = (if capture then u :: r2.1 else r2.1, r2.2) ∧ fieldOK lit u = true := by
  simp only [matchPieces] at h
  obtain ⟨u, v, r2, hs, hkv, hr, hu, hfail⟩ := lazyGo_sound capture _ s [] r h
  have hkv2 : matchPieces (Piece.lit lit :: ps) v = some r2 := by
    simpa only [matchPieces] using hkv
  obtain ⟨more, hv, hm⟩ := matchPieces_lit_sound lit ps v r2 hkv2
  subst hv
  refine ⟨u, more, r2, hs, hm, by simpa using hr, ?_⟩
  have hn : u.contains '\n' = false := by
    simp only [List.contains_eq_any_beq, List.any_eq_false, beq_iff_eq]
    exact fun c hc e => hu c hc e.symm
  have key : ∀ a b, u = a ++ b → startsIn lit b (lit ++ more) = false := by
    intro a b
    induction b generalizing a with
    | nil => intro _; rfl
    | cons c b ih =>
      intro hab
      have h1 := hfail a (c :: b) hab (by simp)
      have h2 : lit.isPrefixOf (c :: b ++ (lit ++ more)) = false := by
        cases hp : lit.isPrefixOf (c :: b ++ (lit ++ more)) with
        | false => rfl
        | true =>
          exfalso
          obtain ⟨w, hw⟩ := List.isPrefixOf_iff_prefix.mp hp
          have hlen : lit.length ≤ (c :: b ++ lit).length := by
            simp only [List.cons_append, List.length_cons, List.length_append]; omega
          have hw2 : w = (c :: b ++ lit).drop lit.length ++ more := by
            have e1 : (lit ++ w).drop lit.length = w := List.drop_left _ _
            rw [← e1, hw, ← List.append_assoc, List.drop_append_of_le_length hlen]
          have hx : ∀ d ∈ (c :: b ++ lit).drop lit.length, d ≠ '\n' := by
            intro d hd
            have hd2 := List.mem_of_mem_drop hd
            rcases List.mem_append.mp hd2 with hd3 | hd3
            · exact hu d (by rw [hab]; exact List.mem_append_right _ hd3)
            · exact hl d hd3
          have hsome := ha _ more hx (by rw [hm]; rfl)
          have h3 : matchPieces (Piece.lit lit :: ps) (c :: b ++ (lit ++ more))
              = matchPieces ps w := by
            rw [← hw, matchPieces_lit]
          have h4 : matchPieces (Piece.lit lit :: ps) (c :: b ++ (lit ++ more)) = none := by
            simpa only [matchPieces] using h1
          rw [h3, hw2] at h4
          rw [h4] at hsome
          exact absurd hsome (by simp)
      have h5 := ih (a ++ [c]) (by simp [hab])
      simp only [startsIn, h2, h5, Bool.or_self]
  have hst := key [] u rfl
  rw [startsIn_append] at hst
  simp only [fieldOK, hn, hst]
  rfl

/-- Every match of the expression is a well-formed record, of which the title
and the path are captured. -/
theorem matchPieces_sound (s : GoString) (r : List GoString × GoString)
    (h : matchPieces pattern s = some r) :
    ∃ rec : Record, rec.wellFormed = true ∧ s = rec.text ++ r.2 ∧ r.1 = [rec.title, rec.path] := by
  obtain ⟨x1, hs1, h1⟩ := matchPieces_lit_sound titleOpen _ s r h
  obtain ⟨t, x2, r2, hs2, h2, hr2, ht⟩ := matchPieces_field_sound true pathOpen _ x1 r
    (by decide) (absorbs_lazyAny _ _) h1
  obtain ⟨p, x3, r3, hs3, h3, hr3, hp⟩ := matchPieces_field_sound true colourOpen _ x2 r2
    (by decide) (absorbs_lazyAny _ _) h2
  obtain ⟨c, x4, r4, hs4, h4, hr4, hc⟩ := matchPieces_field_sound false opacityOpen _ x3 r3
    (by decide) (absorbs_lazyAny _ _) h3
  obtain ⟨o, x5, r5, hs5, h5, hr5, ho⟩ := matchPieces_field_sound false recordEnd [] x4 r4
    (by decide) (fun _ _ _ _ => rfl) h4
  simp only [matchPieces, Option.some.injEq] at h5
  refine ⟨⟨t, p, c, o⟩, ?_, ?_, ?_⟩
  · simp [Record.wellFormed, ht, hp, hc, ho]
  · rw [hs1, hs2, hs3, hs4, hs5, hr2, hr3, hr4, hr5, ← h5]
    simp [Record.text]
  · rw [hr2, hr3, hr4, hr5, ← h5]
    simp

/-- Every match that the search records is a match of the expression at some
position of the text. -/
theorem findGo_sound (ps : List Piece) (s : GoString) (skip : Nat) (m : List GoString)
    (h : m ∈ findGo ps s skip) :
    ∃ t r, matchPieces ps t = some r ∧ m = t.take (t.length - r.2.length) :: r.1 := by
  induction s generalizing skip with
  | nil => simp [findGo] at h
  | cons c s ih =>
    cases skip with
    | succ k => exact ih k (by simpa [findGo] using h)
    | zero =>
      cases hm : matchPieces ps (c :: s) with
      | none => exact ih 0 (by simpa [findGo, hm] using h)
      | some r =>
        simp only [findGo, hm, List.mem_cons] at h
        rcases h with h | h
        · exact ⟨c :: s, r, hm, h⟩
        · exact ih _ h

/-- Every match of `FindAllStringSubmatch` for the expression of the program is
the text of a well-formed record, followed by its title and its path. -/
theorem findAll_sound (content : GoString) (m : List GoString)
    (h : m ∈ FindAllStringSubmatch pattern content) :
    ∃ rec : Record, rec.wellFormed = true ∧ m = [rec.text, rec.title, rec.path] := by
  obtain ⟨t, r, hm, he⟩ := findGo_sound pattern content 0 m h
  obtain ⟨rec, hw, ht, hr⟩ := matchPieces_sound t r hm
  refine ⟨rec, hw, ?_⟩
  rw [he, hr, ht]
  simp

/-! ## Lemmas on single points and on paths of files -/

theorem PointsToCm_nan (d : F64) : PointsToCm F64.nan d = F64.nan := by
  simp [PointsToCm, F64.mul, F64.div]

theorem closeRing_single (p : Point) :
    closeRing [p] = if pointEq p p then [p] else [p, p] := by
  simp only [closeRing, List.head?_cons, List.getLast?_singleton]
  cases pointEq p p <;> simp

theorem pointEq_nan (p : Point) (h : p.1 = F64.nan ∨ p.2 = F64.nan) : pointEq p p = false := by
  rcases h with h | h <;> simp [pointEq, h, F64.eq]

theorem exists_last_sep (sep : Char) (path : GoString) (h : sep ∈ path) :
    ∃ dir name, path = dir ++ sep :: name ∧ sep ∉ name := by
  induction path with
  | nil => simp at h
  | cons c p ih =>
    by_cases hp : sep ∈ p
    · obtain ⟨dir, name, e, hn⟩ := ih hp
      exact ⟨c :: dir, name, by simp [e], hn⟩
    · have hc : sep = c := by
        rcases List.mem_cons.mp h with h | h
        · exact h
        · exact absurd h hp
      exact ⟨[], p, by simp [hc], hp⟩

theorem zipWith_congr_mem {α β : Type} (f g : α → α → β) (l l2 : List α)
    (h : ∀ p ∈ l, ∀ q ∈ l2, f p q = g p q) : List.zipWith f l l2 = List.zipWith g l l2 := by
  induction l generalizing l2 with
  | nil => simp
  | cons a l ih =>
    cases l2 with
    | nil => simp
    | cons b l2 =>
      simp only [List.zipWith_cons_cons, List.cons.injEq]
      exact ⟨h a (by simp) b (by simp),
        ih l2 (fun p hp q hq => h p (by simp [hp]) q (by simp [hq]))⟩

section TwoPoints

variable {K : Type} [LinearOrderedField K]

theorem sum_zipWith_sub {α : Type} (φ : α → K) (l l2 : List α) (h : l.length = l2.length) :
    (List.zipWith (fun p q => φ q - φ p) l l2).sum = (l2.map φ).sum - (l.map φ).sum := by
  induction l generalizing l2 with
  | nil =>
    cases l2 with
    | nil => simp
    | cons b l2 => simp at h
  | cons a l ih =>
    cases l2 with
    | nil => simp at h
    | cons b l2 =>
      simp only [List.length_cons, Nat.add_right_cancel_iff] at h
      simp only [List.zipWith_cons_cons, List.sum_cons, List.map_cons, ih l2 h]
      ring

/-- The shoelace sum of a ring whose points take at most two values is zero:
every step from one value to the other is undone by a step back. -/
theorem ringSum_two (a b : K × K) (path : List (K × K)) (h : ∀ p ∈ path, p = a ∨ p = b) :
    ringSum cross path = 0 := by
  have hφ : ∀ p ∈ path, ∀ q ∈ path.rotate 1,
      cross p q = (fun r => if r = a then 0 else cross a b) q
        - (fun r => if r = a then 0 else cross a b) p := by
    intro p hp q hq
    have hq2 : q ∈ path := List.mem_rotate.mp hq
    have haa : cross a a = 0 := by unfold cross; ring
    have hbb : cross b b = 0 := by unfold cross; ring
    rcases h p hp with hp1 | hp1 <;> rcases h q hq2 with hq1 | hq1 <;> rw [hp1, hq1]
    · simp [haa]
    · by_cases e : b = a
      · simp [e, haa]
      · simp [e]
    · by_cases e : b = a
      · simp [e, haa]
      · simp [e, cross_swap a b]
    · simp [hbb]
  unfold ringSum
  rw [zipWith_congr_mem _ _ _ _ hφ, sum_zipWith_sub _ _ _ (by simp),
    ((List.rotate_perm path 1).map _).sum_eq]
  ring

theorem two_values_of_card (path : List (K × K)) (h : path.toFinset.card < 3) :
    ∃ a b, ∀ p ∈ path, p = a ∨ p = b := by
  have h2 : path.toFinset.card ≤ 2 := by omega
  rcases Nat.lt_or_eq_of_le h2 with h1 | h1
  · have h3 : path.toFinset.card ≤ 1 := by omega
    rcases Nat.lt_or_eq_of_le h3 with h0 | h0
    · have : path.toFinset = ∅ := Finset.card_eq_zero.mp (by omega)
      have hnil : path = [] := (List.toFinset_eq_empty_iff path).mp this
      exact ⟨(0, 0), (0, 0), by simp [hnil]⟩
    · obtain ⟨a, ha⟩ := Finset.card_eq_one.mp h0
      refine ⟨a, a, fun p hp => Or.inl ?_⟩
      have : p ∈ path.toFinset := List.mem_toFinset.mpr hp
      rw [ha] at this
      exact Finset.mem_singleton.mp this
  · obtain ⟨a, b, _, hab⟩ := Finset.card_eq_two.mp h1
    refine ⟨a, b, fun p hp => ?_⟩
    have : p ∈ path.toFinset := List.mem_toFinset.mpr hp
    rw [hab] at this
    simpa using this

end TwoPoints

/-! ## Lemmas on the unit square -/

section SquareRing

variable {K : Type} [LinearOrderedField K]

end SquareRing

/-- C1 (amended): for every well-formed coordinate text `[x1 y1]...[xn yn]`
(every token a number for `ParseFloat`, the input points being `xs`),
`ParseCoordinates` returns a sequence whose first `n` points are, in input
order, `(PointsToCm(x_i, 72), PointsToCm(y_i, 72))`, that is
`(x_i * (25.4 / 72) / 10, y_i * (25.4 / 72) / 10)` evaluated in float64 in this
order, and whose length is `n` when the first and last converted points are
`==` (as they are when the first and last input points are `==`) and `n + 1`
otherwise. -/
theorem parseCoordinates_wellFormed (gs : Groups) (xs : List Point)
    (hnum : gs.map inputPoint = xs.map some) :
    (ParseCoordinates (render gs)).take gs.length = xs.map toCm ∧
    (∀ p : Point, toCm p =
      (F64.div (F64.mul p.1 (F64.div (F64.ofRatio 254 10) (F64.ofRatio 72 1))) (F64.ofRatio 10 1),
        F64.div (F64.mul p.2 (F64.div (F64.ofRatio 254 10) (F64.ofRatio 72 1)))
          (F64.ofRatio 10 1))) ∧
    (ParseCoordinates (render gs)).length =
      (if ringClosed (xs.map toCm) then gs.length else gs.length + 1) ∧
    (ringClosed xs = true → (ParseCoordinates (render gs)).length = gs.length) := by
  have hlen : gs.length = xs.length := by simpa using congrArg List.length hnum
  rw [parseCoordinates_render gs (tokenGroups_of_inputs gs xs hnum),
    filterMap_convert gs xs hnum, closeRing_eq, hlen]
  refine ⟨?_, fun _ => rfl, ?_, ?_⟩
  · cases xs with
    | nil => simp [ringClosed]
    | cons x xs => cases ringClosed ((x :: xs).map toCm) <;> simp
  · cases xs with
    | nil => simp [ringClosed]
    | cons x xs => cases ringClosed ((x :: xs).map toCm) <;> simp
  · intro h
    rw [if_pos (ringClosed_map_toCm xs h)]
    simp

theorem parseCoordinates_wellFormed_witness :
    (ParseCoordinates (render squareGroups)).take squareGroups.length = squareInputs.map toCm ∧
    (∀ p : Point, toCm p =
      (F64.div (F64.mul p.1 (F64.div (F64.ofRatio 254 10) (F64.ofRatio 72 1))) (F64.ofRatio 10 1),
        F64.div (F64.mul p.2 (F64.div (F64.ofRatio 254 10) (F64.ofRatio 72 1)))
          (F64.ofRatio 10 1))) ∧
    (ParseCoordinates (render squareGroups)).length =
      (if ringClosed (squareInputs.map toCm) then squareGroups.length
      else squareGroups.length + 1) ∧
    (ringClosed squareInputs = true →
      (ParseCoordinates (render squareGroups)).length = squareGroups.length) :=
  parseCoordinates_wellFormed squareGroups squareInputs (by decide)

/-- C1 as stated fails, in its length and in its values.  In
`[72 0][72.00000000000001 0]` both groups are numbers, the first and last input
points differ (72 and the next float64 above it), yet both convert to 2.54 and
the result has `n = 2` points, not `n + 1`.  And the x coordinate that
`ParseCoordinates("[13 0]")` returns, `13 * (25.4 / 72) / 10` in float64, is
neither `13 * 25.4 / 72 / 10` evaluated from left to right in float64 nor the
float64 nearest to the exact value of `13 * 25.4 / 72 / 10`: these two are the
same float64, two units in the last place above it. -/
theorem parseCoordinates_wellFormed_counterexample :
    (ParseFloat "72".toList = some f72 ∧
      ParseFloat "72.00000000000001".toList = some (F64.fin false 5066549580791809 1028) ∧
      ParseFloat "0".toList = some f0) ∧
    pointEq (f72, f0) (F64.fin false 5066549580791809 1028, f0) = false ∧
    ParseCoordinates "[72 0][72.00000000000001 0]".toList = [(f254, f0), (f254, f0)] ∧
    (ParseCoordinates "[72 0][72.00000000000001 0]".toList).length ≠ 2 + 1 ∧
    ParseFloat "13".toList = some (F64.ofRatio 13 1) ∧
    ParseCoordinates "[13 0]".toList = [(F64.fin false 8261603316431875 1020, f0)] ∧
    F64.div (F64.div (F64.mul (F64.ofRatio 13 1) (F64.ofRatio 254 10)) (F64.ofRatio 72 1))
        (F64.ofRatio 10 1)
      = F64.fin false 8261603316431877 1020 ∧
    F64.ofRatio (13 * 254) (10 * 72 * 10) = F64.fin false 8261603316431877 1020 := by
  decide

/-- C2 (amended): for every well-formed coordinate text, when the first and
last converted points are `==` (as they are when the first and last input
points are `==`) no point is appended: the result is exactly the converted input
points; otherwise exactly one point is appended at the end and it is the first
point of the result. -/
theorem parseCoordinates_closing (gs : Groups) (xs : List Point)
    (hnum : gs.map inputPoint = xs.map some) :
    (ringClosed (xs.map toCm) = true → ParseCoordinates (render gs) = xs.map toCm) ∧
    (ringClosed xs = true → ParseCoordinates (render gs) = xs.map toCm) ∧
    (ringClosed (xs.map toCm) = false →
      ∃ first, (ParseCoordinates (render gs)).head? = some first ∧
        ParseCoordinates (render gs) = xs.map toCm ++ [first]) := by
  rw [parseCoordinates_render gs (tokenGroups_of_inputs gs xs hnum),
    filterMap_convert gs xs hnum, closeRing_eq]
  refine ⟨?_, ?_, ?_⟩
  · intro h; simp [h]
  · intro h; simp [ringClosed_map_toCm xs h]
  · intro h
    cases xs with
    | nil => simp [ringClosed] at h
    | cons x xs =>
      refine ⟨toCm x, ?_⟩
      rw [if_neg (by rw [h]; decide)]
      simp

theorem parseCoordinates_closing_witness :
    (ringClosed (squareInputs.map toCm) = true →
      ParseCoordinates (render squareGroups) = squareInputs.map toCm) ∧
    (ringClosed squareInputs = true →
      ParseCoordinates (render squareGroups) = squareInputs.map toCm) ∧
    (ringClosed (squareInputs.map toCm) = false →
      ∃ first, (ParseCoordinates (render squareGroups)).head? = some first ∧
        ParseCoordinates (render squareGroups) = squareInputs.map toCm ++ [first]) :=
  parseCoordinates_closing squareGroups squareInputs (by decide)

/-- C2 as stated fails: in `[0 36][0 36.00000000000001]` the first and last
points differ, yet no point is appended (both convert to `(0, 1.27)`). -/
theorem parseCoordinates_closing_counterexample :
    (ParseFloat "36".toList = some (F64.fin false 5066549580791808 1027) ∧
      ParseFloat "36.00000000000001".toList = some (F64.fin false 5066549580791809 1027) ∧
      ParseFloat "0".toList = some f0) ∧
    pointEq (f0, F64.fin false 5066549580791808 1027)
      (f0, F64.fin false 5066549580791809 1027) = false ∧
    ParseCoordinates "[0 36][0 36.00000000000001]".toList
      = [(f0, F64.fin false 5719571526760530 1022), (f0, F64.fin false 5719571526760530 1022)] := by
  decide


/-- C3 (amended): for every input string `s`, well-formed or not, the result of
`ParseCoordinates(s)` is empty, or its first point is `==` its last, or its first
point has a NaN coordinate and its last point is a copy of the first; hence so
is the Path of every Space built from the matches of `FindSpacesFromEndObj`. -/
theorem path_closedUpToNaN (s : GoString) (ms : List (List GoString)) (sp : Space F64)
    (hsp : sp ∈ spacesOfMatches ms) :
    closedUpToNaN (ParseCoordinates s) ∧ closedUpToNaN sp.Path := by
  refine ⟨closeRing_closed _, ?_⟩
  rw [spacesOfMatches_eq, List.mem_map] at hsp
  obtain ⟨m, _, rfl⟩ := hsp
  exact closeRing_closed _

theorem path_closedUpToNaN_witness :
    closedUpToNaN (ParseCoordinates "[NaN 0][7 8]".toList) ∧
    closedUpToNaN (Space.mk "Hall".toList (ParseCoordinates "[0 0][72 0][72 72]".toList)).Path :=
  path_closedUpToNaN "[NaN 0][7 8]".toList
    [["<</Type/Space/Title(Hall)/Path[[0 0][72 0][72 72]]/C[1 0 0]/CA 0.5>>".toList,
      "Hall".toList, "[0 0][72 0][72 72]".toList]]
    (Space.mk "Hall".toList (ParseCoordinates "[0 0][72 0][72 72]".toList))
    (by simp [spacesOfMatches])

/-- C3 as stated fails: `ParseCoordinates("[NaN 0]")` is the non-empty sequence
`(NaN, 0), (NaN, 0)`, whose first point is not `==` its last. -/
theorem path_closed_counterexample :
    ParseCoordinates "[NaN 0]".toList = [(F64.nan, f0), (F64.nan, f0)] ∧
    ringClosed (ParseCoordinates "[NaN 0]".toList) = false := by
  decide

/-- C4: for every coordinate text made of two-token groups, `ParseCoordinates`
returns the same sequence as for the text with every group deleted in which a
token fails numeric parsing; the other groups are still parsed, each of their
points being in the result. -/
theorem parseCoordinates_dropsMalformed (gs : Groups) (htok : tokenGroups gs) :
    ParseCoordinates (render gs) = ParseCoordinates (render (gs.filter numericB)) ∧
    ∀ g ∈ gs, numericB g = true →
      ∃ p, convert g = some p ∧ p ∈ ParseCoordinates (render gs) := by
  have htok2 : tokenGroups (gs.filter numericB) :=
    fun g hg => htok g (List.mem_of_mem_filter hg)
  refine ⟨?_, ?_⟩
  · rw [parseCoordinates_render gs htok, parseCoordinates_render _ htok2,
      filterMap_convert_filter]
  · intro g hg hn
    rw [← convert_isSome] at hn
    obtain ⟨p, hp⟩ := Option.isSome_iff_exists.mp hn
    refine ⟨p, hp, ?_⟩
    rw [parseCoordinates_render gs htok]
    exact subset_closeRing _ _ (List.mem_filterMap.mpr ⟨g, hg, hp⟩)

theorem parseCoordinates_dropsMalformed_witness :
    ParseCoordinates (render [("0".toList, "0".toList), ("abc".toList, "10".toList),
        ("72".toList, "0".toList)])
      = ParseCoordinates (render (List.filter numericB [("0".toList, "0".toList),
        ("abc".toList, "10".toList), ("72".toList, "0".toList)])) ∧
    ∀ g ∈ [("0".toList, "0".toList), ("abc".toList, "10".toList), ("72".toList, "0".toList)],
      numericB g = true →
      ∃ p, convert g = some p ∧ p ∈ ParseCoordinates (render [("0".toList, "0".toList),
        ("abc".toList, "10".toList), ("72".toList, "0".toList)]) :=
  parseCoordinates_dropsMalformed _ (by decide)

/-- C5 (amended): for every well-formed coordinate text of `n` groups and every
text obtained from it by replacing `k` of its groups with groups containing a
non-numeric token, the number of points `ParseCoordinates` has collected before
its closing step is `n` for the original text and exactly `k` less for the
modified one; the length it returns for the modified text is that number, plus
one when the collected points are not closed. -/
theorem parseCoordinates_count (gs gs2 : Groups)
    (hnum : ∀ g ∈ gs, numericB g = true) (htok2 : tokenGroups gs2)
    (hrep : List.Forall₂ (fun g g2 => g2 = g ∨ numericB g2 = false) gs gs2) :
    (parsePoints (render gs)).length = gs.length ∧
    (parsePoints (render gs2)).length + gs2.countP (fun g => !numericB g) = gs.length ∧
    (ParseCoordinates (render gs2)).length =
      (parsePoints (render gs2)).length
        + (if ringClosed (parsePoints (render gs2)) then 0 else 1) := by
  have h0 : gs.countP (fun g => !numericB g) = 0 := by
    rw [List.countP_eq_zero]
    intro g hg
    simp [hnum g hg]
  have h1 := length_filterMap_convert gs
  have h2 := length_filterMap_convert gs2
  have hl := hrep.length_eq
  refine ⟨?_, ?_, ?_⟩
  · rw [parsePoints_render gs (tokenGroups_of_numeric gs hnum)]; omega
  · rw [parsePoints_render gs2 htok2]; omega
  · rw [ParseCoordinates, closeRing_eq]
    cases hp : parsePoints (render gs2) with
    | nil => simp [ringClosed]
    | cons p ps => cases ringClosed (p :: ps) <;> simp

theorem parseCoordinates_count_witness :
    (parsePoints (render [("0".toList, "0".toList), ("72".toList, "0".toList),
      ("0".toList, "0".toList)])).length = 3 ∧
    (parsePoints (render [("0".toList, "0".toList), ("72".toList, "0".toList),
      ("abc".toList, "10".toList)])).length + 1 = 3 ∧
    (ParseCoordinates (render [("0".toList, "0".toList), ("72".toList, "0".toList),
      ("abc".toList, "10".toList)])).length =
      (parsePoints (render [("0".toList, "0".toList), ("72".toList, "0".toList),
        ("abc".toList, "10".toList)])).length
        + (if ringClosed (parsePoints (render [("0".toList, "0".toList),
            ("72".toList, "0".toList), ("abc".toList, "10".toList)])) then 0 else 1) :=
  parseCoordinates_count
    [("0".toList, "0".toList), ("72".toList, "0".toList), ("0".toList, "0".toList)]
    [("0".toList, "0".toList), ("72".toList, "0".toList), ("abc".toList, "10".toList)]
    (by decide) (by decide)
    (List.Forall₂.cons (Or.inl rfl) (List.Forall₂.cons (Or.inl rfl)
      (List.Forall₂.cons (Or.inr (by decide)) List.Forall₂.nil)))

/-- C5 as stated fails: replacing the last group of `[0 0][72 0][0 0]` by
`[abc 10]` (one malformed group) leaves the returned length at 3, because the
two points left are closed by a copy of the first. -/
theorem parseCoordinates_count_counterexample :
    ParseFloat "abc".toList = none ∧
    (ParseCoordinates "[0 0][72 0][0 0]".toList).length = 3 ∧
    (ParseCoordinates "[0 0][72 0][abc 10]".toList).length = 3 ∧
    (ParseCoordinates "[0 0][72 0][abc 10]".toList).length
      ≠ (ParseCoordinates "[0 0][72 0][0 0]".toList).length - 1 := by
  decide


/-- The Path of the unit-square text `[0 0][72 0][72 72][0 72][0 0]`, as parsed:
five points, closed, with coordinates `0` and the float64 nearest to `2.54`. -/
theorem parseCoordinates_square :
    ParseCoordinates "[0 0][72 0][72 72][0 72][0 0]".toList
      = [(f0, f0), (f254, f0), (f254, f254), (f0, f254), (f0, f0)] ∧
    F64.ofRatio 254 100 = f254 := by
  decide

section GeometryClaims

variable {K : Type} [LinearOrderedField K]

/-- C6: for every Space whose Path is a closed ring `p_0, ..., p_m` (`p_m =
p_0`), `Area()` equals `|Σ_{i < m} (x_i * y_{i+1} - x_{i+1} * y_i)| / 2`, and it
is never negative. -/
theorem area_closedRing (s : Space K) (hclosed : s.Path.head? = s.Path.getLast?) :
    s.Area = |(Finset.range (s.Path.length - 1)).sum (fun i =>
        (s.Path.getD i 0).1 * (s.Path.getD (i + 1) 0).2
          - (s.Path.getD (i + 1) 0).1 * (s.Path.getD i 0).2)| / 2 ∧
    0 ≤ s.Area := by
  refine ⟨?_, div_nonneg (abs_nonneg _) (by norm_num)⟩
  obtain ⟨title, path⟩ := s
  cases path with
  | nil => simp [Space.Area, planarArea, ringSum]
  | cons p t =>
    have hr : (p :: t).rotate 1 = t ++ [p] := by simp [List.rotate_cons_succ]
    have hlast : (p :: t).getD t.length 0 = p := by
      have h1 : (p :: t).getLast? = some p := by simpa using hclosed.symm
      rw [List.getLast?_eq_getElem?] at h1
      simp only [List.length_cons, Nat.add_sub_cancel] at h1
      simp [List.getD_eq_getElem?_getD, h1]
    simp only [Space.Area, planarArea, ringSum, hr, sum_zipWith_shift cross 0 p p t, hlast,
      List.length_cons, Nat.add_sub_cancel]
    simp [cross]

theorem area_closedRing_witness :
    roomSpace.Area = |(Finset.range (roomSpace.Path.length - 1)).sum (fun i =>
        (roomSpace.Path.getD i 0).1 * (roomSpace.Path.getD (i + 1) 0).2
          - (roomSpace.Path.getD (i + 1) 0).1 * (roomSpace.Path.getD i 0).2)| / 2 ∧
    0 ≤ roomSpace.Area :=
  area_closedRing roomSpace rfl

/-- C7: for every Space whose Path is `p_0, ..., p_m`, `Perimeter()` equals the
sum of the Euclidean distances between each consecutive pair of points plus the
closing segment from `p_m` back to `p_0`, which is zero when the path is already
closed (`sqrt 0 = 0`). -/
theorem perimeter_segments (sqrt : K → K) (s : Space K) (hne : s.Path ≠ [])
    (hsqrt : sqrt 0 = 0) :
    s.Perimeter sqrt
      = (Finset.range (s.Path.length - 1)).sum (fun i =>
          segment sqrt (s.Path.getD i 0) (s.Path.getD (i + 1) 0))
        + segment sqrt (s.Path.getD (s.Path.length - 1) 0) (s.Path.getD 0 0) ∧
    (s.Path.getD (s.Path.length - 1) 0 = s.Path.getD 0 0 →
      segment sqrt (s.Path.getD (s.Path.length - 1) 0) (s.Path.getD 0 0) = 0) := by
  constructor
  · obtain ⟨title, path⟩ := s
    cases path with
    | nil => exact absurd rfl hne
    | cons p t =>
      have hr : (p :: t).rotate 1 = t ++ [p] := by simp [List.rotate_cons_succ]
      simp only [Space.Perimeter, planarLength, ringSum, hr,
        sum_zipWith_shift (segment sqrt) 0 p p t, List.length_cons, Nat.add_sub_cancel]
      simp
  · intro h
    rw [h]
    simp [segment, hsqrt]

theorem perimeter_segments_witness :
    roomSpace.Perimeter Rat.sqrt
      = (Finset.range (roomSpace.Path.length - 1)).sum (fun i =>
          segment Rat.sqrt (roomSpace.Path.getD i 0) (roomSpace.Path.getD (i + 1) 0))
        + segment Rat.sqrt (roomSpace.Path.getD (roomSpace.Path.length - 1) 0)
            (roomSpace.Path.getD 0 0) ∧
    (roomSpace.Path.getD (roomSpace.Path.length - 1) 0 = roomSpace.Path.getD 0 0 →
      segment Rat.sqrt (roomSpace.Path.getD (roomSpace.Path.length - 1) 0)
        (roomSpace.Path.getD 0 0) = 0) :=
  perimeter_segments Rat.sqrt roomSpace (by simp [roomSpace]) (by simp)

/-- C9: Area and Perimeter are invariant under cyclic rotation of the starting
index of the ring: for every closed ring `p_0, ..., p_{m-1}, p_0` and every `k`,
the Space whose Path is the same ring started at `p_k` has the same `Area()` and
the same `Perimeter()`. -/
theorem area_perimeter_rotate (sqrt : K → K) (title : GoString) (ps : List (K × K))
    (k : Nat) :
    (Space.mk title (closeOf (ps.rotate k))).Area = (Space.mk title (closeOf ps)).Area ∧
    (Space.mk title (closeOf (ps.rotate k))).Perimeter sqrt
      = (Space.mk title (closeOf ps)).Perimeter sqrt := by
  cases ps with
  | nil => simp
  | cons p t =>
    cases h : (p :: t).rotate k with
    | nil => simp [List.rotate_eq_nil_iff] at h
    | cons q u =>
      have hs : ∀ f : K × K → K × K → K, ringSum f (q :: u) = ringSum f (p :: t) := by
        intro f
        rw [← h, ringSum_rotate]
      simp only [Space.Area, Space.Perimeter, planarArea, planarLength, ringSum_closeOf, hs]
      simp [cross, segment]

/-- C10: Area is invariant under reversal of the traversal direction: for every
Path, the Space with the reversed point list has the same `Area()`. -/
theorem area_reverse (title : GoString) (path : List (K × K)) :
    (Space.mk title path.reverse).Area = (Space.mk title path).Area :=
  planarArea_reverse path

end GeometryClaims

/-- C11: for every document text `pre R1 mid R2 post` that holds two well-formed
records `R1` and `R2` one after the other (no field of a record has a newline or
holds the beginning of the text that ends the field) and in which
`<</Type/Space/Title(` begins nowhere else, `FindSpacesFromEndObj` yields
exactly two Spaces, in document order, the i-th with the title of the i-th
record verbatim as Title and `ParseCoordinates` of its path text as Path. -/
theorem findSpaces_two (pre mid post : GoString) (r1 r2 : Record)
    (h1 : r1.wellFormed = true) (h2 : r2.wellFormed = true)
    (hpre : startsIn titleOpen pre titleOpen = false)
    (hmid : startsIn titleOpen mid titleOpen = false)
    (hpost : startsIn titleOpen post [] = false) :
    FindSpacesFromEndObj (pre ++ r1.text ++ mid ++ r2.text ++ post)
      = [{ Title := r1.title, Path := ParseCoordinates r1.path },
          { Title := r2.title, Path := ParseCoordinates r2.path }] := by
  have e : pre ++ r1.text ++ mid ++ r2.text ++ post
      = pre ++ (r1.text ++ (mid ++ (r2.text ++ post))) := by simp
  rw [FindSpacesFromEndObj, FindAllStringSubmatch, e, findGo_record pre r1 _ hpre h1,
    findGo_record mid r2 _ hmid h2, findGo_post post hpost, spacesOfMatches_eq]
  rfl

theorem findSpaces_two_witness :
    FindSpacesFromEndObj ("%PDF-1.7\n".toList ++ hallRecord.text ++ "\nendobj\n".toList
        ++ roomRecord.text ++ "\n%%EOF".toList)
      = [{ Title := hallRecord.title, Path := ParseCoordinates hallRecord.path },
          { Title := roomRecord.title, Path := ParseCoordinates roomRecord.path }] :=
  findSpaces_two "%PDF-1.7\n".toList "\nendobj\n".toList "\n%%EOF".toList hallRecord roomRecord
    (by decide) (by decide) (by decide) (by decide) (by decide)

/-- C12: for every record `<</Type/Space/Title(T)/Path[[x1 y1]...[xn yn]]/C[c]/CA a>>`
whose inner groups are numbers (the input points being `xs`) and whose title,
colour and opacity are well-formed fields, alone in a document, the path text
captured is the whole `[x1 y1]...[xn yn]`, up to the `]` before `/C[`, and the
Path of the resulting Space begins with the `n` converted points. -/
theorem findSpaces_nested (pre post title colour opacity : GoString) (gs : Groups)
    (xs : List Point) (hnum : gs.map inputPoint = xs.map some)
    (ht : fieldOK pathOpen title = true) (hc : fieldOK opacityOpen colour = true)
    (ho : fieldOK recordEnd opacity = true)
    (hpre : startsIn titleOpen pre titleOpen = false)
    (hpost : startsIn titleOpen post [] = false) :
    FindAllStringSubmatch pattern
        (pre ++ (Record.mk title (render gs) colour opacity).text ++ post)
      = [[(Record.mk title (render gs) colour opacity).text, title, render gs]] ∧
    ∃ path, FindSpacesFromEndObj
        (pre ++ (Record.mk title (render gs) colour opacity).text ++ post)
      = [{ Title := title, Path := path }] ∧ path.take gs.length = xs.map toCm := by
  have htok := tokenGroups_of_inputs gs xs hnum
  have hw : (Record.mk title (render gs) colour opacity).wellFormed = true := by
    simp [Record.wellFormed, ht, hc, ho, render_fieldOK gs htok]
  have e : pre ++ (Record.mk title (render gs) colour opacity).text ++ post
      = pre ++ ((Record.mk title (render gs) colour opacity).text ++ post) := by simp
  have hm : FindAllStringSubmatch pattern
        (pre ++ (Record.mk title (render gs) colour opacity).text ++ post)
      = [[(Record.mk title (render gs) colour opacity).text, title, render gs]] := by
    rw [FindAllStringSubmatch, e, findGo_record pre _ post hpre hw, findGo_post post hpost]
  refine ⟨hm, ParseCoordinates (render gs), ?_, ?_⟩
  · rw [FindSpacesFromEndObj, hm, spacesOfMatches_eq]
    rfl
  · have hlen : gs.length = xs.length := by simpa using congrArg List.length hnum
    rw [parseCoordinates_render gs htok, filterMap_convert gs xs hnum, closeRing_eq, hlen]
    cases xs with
    | nil => simp [ringClosed]
    | cons x xs => cases ringClosed ((x :: xs).map toCm) <;> simp

theorem findSpaces_nested_witness :
    FindAllStringSubmatch pattern
        ("%PDF\n".toList ++ (Record.mk "Hall".toList (render squareGroups) "1 0 0".toList
          "0.5".toList).text ++ "\n%%EOF".toList)
      = [[(Record.mk "Hall".toList (render squareGroups) "1 0 0".toList "0.5".toList).text,
          "Hall".toList, render squareGroups]] ∧
    ∃ path, FindSpacesFromEndObj
        ("%PDF\n".toList ++ (Record.mk "Hall".toList (render squareGroups) "1 0 0".toList
          "0.5".toList).text ++ "\n%%EOF".toList)
      = [{ Title := "Hall".toList, Path := path }] ∧
      path.take squareGroups.length = squareInputs.map toCm :=
  findSpaces_nested "%PDF\n".toList "\n%%EOF".toList "Hall".toList "1 0 0".toList "0.5".toList
    squareGroups squareInputs (by decide) (by decide) (by decide) (by decide) (by decide)
    (by decide)

/-- C13: for every document text at no position of which the marker pattern
matches, `FindSpacesFromEndObj` returns the empty sequence of Spaces, and what
`ExportSpacesToCSV` then writes is the header row `Title,Area (m2),Perimeter (m)`
alone. -/
theorem findSpaces_noMatch (content : GoString) (sep : Char)
    (areaText perimeterText : Space F64 → GoString) (pdfPath : GoString)
    (h : ∀ t ∈ content.tails, matchPieces pattern t = none) :
    FindSpacesFromEndObj content = [] ∧
    (ExportSpacesToCSV sep areaText perimeterText (FindSpacesFromEndObj content) pdfPath).2
      = "Title,Area (m2),Perimeter (m)\n".toList := by
  have h0 : FindSpacesFromEndObj content = [] := by
    rw [FindSpacesFromEndObj, FindAllStringSubmatch, findGo_none pattern content h]
    rfl
  refine ⟨h0, ?_⟩
  rw [h0]
  simp only [ExportSpacesToCSV, List.map_nil, List.flatten_nil, List.append_nil]
  decide

theorem findSpaces_noMatch_witness :
    FindSpacesFromEndObj emptyDocument = [] ∧
    (ExportSpacesToCSV '/' (fun _ => []) (fun _ => []) (FindSpacesFromEndObj emptyDocument)
        "dir/plan.pdf".toList).2
      = "Title,Area (m2),Perimeter (m)\n".toList :=
  findSpaces_noMatch emptyDocument '/' (fun _ => []) (fun _ => []) "dir/plan.pdf".toList
    (by decide)

/-- C14 (amended): for every input document path with a directory part, `dir`
followed by the separator and the file name `name`, the CSV path is `dir`, `/`
and `name` with a trailing `.pdf` removed, followed by `.csv`: `dir/base.pdf`
gives `dir/base.csv`, and a name that does not end in `.pdf` is kept whole, its
extension included. -/
theorem csvPath_dir (sep : Char) (dir name : GoString) (h : sep ∉ name) :
    csvPath sep (dir ++ sep :: name)
      = dir ++ '/' :: (TrimSuffix name ".pdf".toList ++ ".csv".toList) ∧
    (∀ base, name = base ++ ".pdf".toList →
      csvPath sep (dir ++ sep :: name) = dir ++ '/' :: (base ++ ".csv".toList)) ∧
    (¬ ".pdf".toList <:+ name →
      csvPath sep (dir ++ sep :: name) = dir ++ '/' :: (name ++ ".csv".toList)) := by
  have e : csvPath sep (dir ++ sep :: name)
      = dir ++ '/' :: (TrimSuffix name ".pdf".toList ++ ".csv".toList) := by
    simp only [csvPath, splitFilePath_dir sep dir name h]
  refine ⟨e, ?_, ?_⟩
  · intro base hb
    rw [e, hb, trimSuffix_append_eq]
  · intro hn
    rw [e, trimSuffix_not name _ hn]

theorem csvPath_dir_witness :
    csvPath '/' ("dir".toList ++ '/' :: "plan.pdf".toList)
      = "dir".toList ++ '/' :: (TrimSuffix "plan.pdf".toList ".pdf".toList ++ ".csv".toList) ∧
    (∀ base, "plan.pdf".toList = base ++ ".pdf".toList →
      csvPath '/' ("dir".toList ++ '/' :: "plan.pdf".toList)
        = "dir".toList ++ '/' :: (base ++ ".csv".toList)) ∧
    (¬ ".pdf".toList <:+ "plan.pdf".toList →
      csvPath '/' ("dir".toList ++ '/' :: "plan.pdf".toList)
        = "dir".toList ++ '/' :: ("plan.pdf".toList ++ ".csv".toList)) :=
  csvPath_dir '/' "dir".toList "plan.pdf".toList (by decide)

/-- C14 as stated fails: for `dir/plan.txt` the CSV path is `dir/plan.txt.csv`,
the extension is not removed; and for the bare `plan.pdf` it is `/plan.csv`, in
the root directory and not beside the document. -/
theorem csvPath_counterexample :
    csvPath '/' "dir/plan.txt".toList = "dir/plan.txt.csv".toList ∧
    csvPath '/' "dir/plan.txt".toList ≠ "dir/plan.csv".toList ∧
    csvPath '/' "plan.pdf".toList = "/plan.csv".toList ∧
    csvPath '/' "plan.pdf".toList ≠ "plan.csv".toList := by
  decide

/-- C15: `PointsToCm(value, dpi)` is `value * (25.4 / dpi) / 10` in float64
arithmetic, for every value and every dpi; with `dpi = 72` it maps 72 to 2.54;
and the loop of `ParseCoordinates` applies it, with `dpi = 72`, to the x and to
the y coordinate of every point it parses. -/
theorem pointsToCm_formula (value dpi : F64) (gs : Groups) (xs : List Point)
    (hnum : gs.map inputPoint = xs.map some) :
    PointsToCm value dpi
      = F64.div (F64.mul value (F64.div (F64.ofRatio 254 10) dpi)) (F64.ofRatio 10 1) ∧
    PointsToCm f72 dpi72 = f254 ∧
    parsePoints (render gs)
      = xs.map (fun p => (PointsToCm p.1 dpi72, PointsToCm p.2 dpi72)) := by
  refine ⟨rfl, by decide, ?_⟩
  rw [parsePoints_render gs (tokenGroups_of_inputs gs xs hnum), filterMap_convert gs xs hnum]
  rfl

theorem pointsToCm_formula_witness :
    PointsToCm f72 f72
      = F64.div (F64.mul f72 (F64.div (F64.ofRatio 254 10) f72)) (F64.ofRatio 10 1) ∧
    PointsToCm f72 dpi72 = f254 ∧
    parsePoints (render squareGroups)
      = squareInputs.map (fun p => (PointsToCm p.1 dpi72, PointsToCm p.2 dpi72)) :=
  pointsToCm_formula f72 f72 squareGroups squareInputs (by decide)

/-- C16 (amended): for every coordinate text made of exactly one well-formed
group `[x y]`, `ParseCoordinates` returns the converted point alone, a sequence
of length 1, when neither `x` nor `y` is NaN; when one of them is NaN the point
is `!=` itself and the closing step appends it again: the sequence has length
2. -/
theorem parseCoordinates_single (g : GoString × GoString) (x y : F64)
    (h : inputPoint g = some (x, y)) :
    (x ≠ F64.nan → y ≠ F64.nan → ParseCoordinates (render [g]) = [toCm (x, y)]) ∧
    (x = F64.nan ∨ y = F64.nan →
      ParseCoordinates (render [g]) = [toCm (x, y), toCm (x, y)]) := by
  have hnum : [g].map inputPoint = [(x, y)].map some := by simp [h]
  have e : ParseCoordinates (render [g]) = closeRing [toCm (x, y)] := by
    rw [parseCoordinates_render [g] (tokenGroups_of_inputs [g] [(x, y)] hnum),
      filterMap_convert [g] [(x, y)] hnum]
    rfl
  rw [e, closeRing_single]
  constructor
  · intro hx hy
    rw [if_pos (pointEq_self _ (PointsToCm_ne_nan x hx) (PointsToCm_ne_nan y hy))]
  · intro hn
    have : pointEq (toCm (x, y)) (toCm (x, y)) = false := by
      apply pointEq_nan
      rcases hn with hn | hn
      · left; simp [toCm, hn, PointsToCm_nan]
      · right; simp [toCm, hn, PointsToCm_nan]
    rw [this]
    rfl

theorem parseCoordinates_single_witness :
    (f72 ≠ F64.nan → f0 ≠ F64.nan →
      ParseCoordinates (render [("72".toList, "0".toList)]) = [toCm (f72, f0)]) ∧
    (f72 = F64.nan ∨ f0 = F64.nan →
      ParseCoordinates (render [("72".toList, "0".toList)]) = [toCm (f72, f0), toCm (f72, f0)]) :=
  parseCoordinates_single ("72".toList, "0".toList) f72 f0 (by decide)

/-- C16 as stated fails: both tokens of the one group of `[NaN 0]` are numbers
for `ParseFloat`, and `ParseCoordinates` returns a sequence of length 2. -/
theorem parseCoordinates_single_counterexample :
    inputPoint ("NaN".toList, "0".toList) = some (F64.nan, f0) ∧
    render [("NaN".toList, "0".toList)] = "[NaN 0]".toList ∧
    (ParseCoordinates "[NaN 0]".toList).length = 2 ∧
    (ParseCoordinates "[NaN 0]".toList).length ≠ 1 := by
  decide

/-- C18: for every coordinate text `[b1][b2]...[bn]` (no body holds a `]`),
`ParseCoordinates` returns the same sequence as for the text from which every
group that does not split on white space into exactly two tokens has been
deleted: such a group is skipped, and the other groups are parsed as they are
without it. -/
theorem parseCoordinates_skips (bs : List GoString) (h : ∀ b ∈ bs, ∀ c ∈ b, c ≠ ']') :
    ParseCoordinates (groupsText bs) = ParseCoordinates (groupsText (bs.filter twoTokens)) ∧
    ParseCoordinates (groupsText bs) = closeRing ((bs.filter twoTokens).foldl parsePair []) := by
  have h2 : ∀ b ∈ bs.filter twoTokens, ∀ c ∈ b, c ≠ ']' :=
    fun b hb => h b (List.mem_of_mem_filter hb)
  simp only [ParseCoordinates, parsePoints_groupsText bs h,
    parsePoints_groupsText (bs.filter twoTokens) h2, foldl_parsePair_filter, and_self]

theorem parseCoordinates_skips_witness :
    ParseCoordinates (groupsText ["0 0".toList, "1 2 3".toList, [], "72 0".toList, "5".toList])
      = ParseCoordinates (groupsText
          (["0 0".toList, "1 2 3".toList, [], "72 0".toList, "5".toList].filter twoTokens)) ∧
    ParseCoordinates (groupsText ["0 0".toList, "1 2 3".toList, [], "72 0".toList, "5".toList])
      = closeRing ((["0 0".toList, "1 2 3".toList, [], "72 0".toList, "5".toList].filter
          twoTokens).foldl parsePair []) :=
  parseCoordinates_skips ["0 0".toList, "1 2 3".toList, [], "72 0".toList, "5".toList]
    (by decide)

/-- C19 (amended): for every record that `FindAllStringSubmatch` matches, the
title captured is the run of characters from just after `Title(` up to the first
`)/Path[`: it has no newline, `)/Path[` follows it and begins nowhere inside
it.  A `)` ends the title when `/Path[` follows it and not otherwise, whether
a backslash stands before it or not. -/
theorem title_capture (content : GoString) (m : List GoString)
    (h : m ∈ FindAllStringSubmatch pattern content) :
    ∃ title rest, m.getD 0 [] = titleOpen ++ title ++ pathOpen ++ rest ∧
      m.getD 1 [] = title ∧ title.contains '\n' = false ∧
      startsIn pathOpen title pathOpen = false := by
  obtain ⟨rec, hw, hm⟩ := findAll_sound content m h
  simp only [Record.wellFormed, fieldOK, Bool.and_eq_true, Bool.not_eq_true'] at hw
  refine ⟨rec.title, rec.path ++ colourOpen ++ rec.colour ++ opacityOpen ++ rec.opacity
    ++ recordEnd, ?_, ?_, hw.1.1.1.1, hw.1.1.1.2⟩
  · rw [hm]; simp [Record.text]
  · rw [hm]; rfl

theorem title_capture_witness :
    ∃ title rest, [roomRecord.text, "Room (A)".toList, "[0 0][72 0]".toList].getD 0 []
        = titleOpen ++ title ++ pathOpen ++ rest ∧
      [roomRecord.text, "Room (A)".toList, "[0 0][72 0]".toList].getD 1 [] = title ∧
      title.contains '\n' = false ∧ startsIn pathOpen title pathOpen = false :=
  title_capture ("%PDF\n".toList ++ roomRecord.text)
    [roomRecord.text, "Room (A)".toList, "[0 0][72 0]".toList] (by decide)

/-- C19 as stated fails: in the record with the title field `(Room (A))` the
first unescaped `)` stands after `A`, and the title captured is `Room (A)`, not
`Room (A`; and in `Title(Lab\)/Path[...` the escaped `\)` ends the title, which
is captured as `Lab\`. -/
theorem title_capture_counterexample :
    FindAllStringSubmatch pattern
        "<</Type/Space/Title(Room (A))/Path[[0 0][72 0]]/C[0 1 0]/CA 1>>".toList
      = ["<</Type/Space/Title(Room (A))/Path[[0 0][72 0]]/C[0 1 0]/CA 1>>".toList,
          "Room (A)".toList, "[0 0][72 0]".toList] :: [] ∧
    FindAllStringSubmatch pattern
        "<</Type/Space/Title(Lab\\)/Path[[0 0]]/C[1]/CA 1>>".toList
      = ["<</Type/Space/Title(Lab\\)/Path[[0 0]]/C[1]/CA 1>>".toList,
          "Lab\\".toList, "[0 0]".toList] :: [] := by
  decide

/-- C20 (amended): for every path string, `splitFilePath` returns `(dir,
filename)` such that `filename` holds no path separator; when the path holds a
separator, `dir`, the separator and `filename` make up the path again; when it
holds none, `dir` is empty and `filename` is the path. -/
theorem splitFilePath_spec (sep : Char) (path : GoString) :
    sep ∉ (splitFilePath sep path).2 ∧
    (sep ∈ path →
      (splitFilePath sep path).1 ++ sep :: (splitFilePath sep path).2 = path) ∧
    (sep ∉ path → splitFilePath sep path = ([], path)) := by
  by_cases hs : sep ∈ path
  · obtain ⟨dir, name, e, hn⟩ := exists_last_sep sep path hs
    have hsp := splitFilePath_dir sep dir name hn
    rw [e, hsp]
    exact ⟨hn, fun _ => rfl, fun hc => absurd (by simp) hc⟩
  · rw [splitFilePath_bare sep path hs]
    exact ⟨hs, fun hc => absurd hc hs, fun _ => rfl⟩

theorem splitFilePath_spec_witness :
    (splitFilePath '/' "dir/sub/plan.pdf".toList).1
        ++ '/' :: (splitFilePath '/' "dir/sub/plan.pdf".toList).2
      = "dir/sub/plan.pdf".toList :=
  (splitFilePath_spec '/' "dir/sub/plan.pdf".toList).2.1 (by decide)

/-- C20 as stated fails: `splitFilePath("plan.pdf")` is `("", "plan.pdf")`, and
`dir`, the separator and `filename` make up `/plan.pdf`, not `plan.pdf`. -/
theorem splitFilePath_counterexample :
    splitFilePath '/' "plan.pdf".toList = ([], "plan.pdf".toList) ∧
    (splitFilePath '/' "plan.pdf".toList).1 ++ '/' :: (splitFilePath '/' "plan.pdf".toList).2
      = "/plan.pdf".toList ∧
    (splitFilePath '/' "plan.pdf".toList).1 ++ '/' :: (splitFilePath '/' "plan.pdf".toList).2
      ≠ "plan.pdf".toList := by
  decide

section FewPoints

variable {K : Type} [LinearOrderedField K]

/-- C17: `Space.Area` is 0 for every Path with fewer than 3 distinct points: the
empty Path, a single point, a ring that goes to and fro between two points. -/
theorem area_fewPoints (s : Space K) (h : s.Path.toFinset.card < 3) : s.Area = 0 := by
  obtain ⟨a, b, hab⟩ := two_values_of_card s.Path h
  simp [Space.Area, planarArea, ringSum_two a b s.Path hab]

theorem area_fewPoints_witness :
    (Space.mk "Wall".toList [((0 : ℚ), (0 : ℚ)), (2, 3), (0, 0), (2, 3), (0, 0)]).Area = 0 :=
  area_fewPoints _ (by decide)

end FewPoints

end SpaceExtract
